import Mathlib

/-!
Verification of the Minesweeper rules engine (`components.py`).

The Python classes `CellState`, `Cell` and `Board` are embedded as Lean
structures, and every Board method is translated into a pure function on
`Board`.  Machine integers are modelled as `Int` (Python integers are
unbounded, so no wrap-around applies).  The only effect in the source is
`random.shuffle(pool)`; it is modelled by a shuffle function parameter
`sigma : List (Int × Int) → List (Int × Int)`, constrained in theorems to
produce a permutation of its input, exactly the guarantee of
`random.shuffle`.
-/

/-- Mutable state of a single cell, from class `CellState`. -/
structure CellState where
  is_mine : Bool
  is_revealed : Bool
  is_flagged : Bool
  adjacent : Int
deriving DecidableEq, Repr

/-- Default-constructed `CellState()`. -/
def CellState.init : CellState :=
  { is_mine := false, is_revealed := false, is_flagged := false, adjacent := 0 }

/-- Logical cell positioned on the board, from class `Cell`. -/
structure Cell where
  col : Int
  row : Int
  state : CellState
deriving DecidableEq, Repr

/-- Cell used as the out-of-range default of list lookups.  Real executions
only look up valid indices, so the default is never observed there. -/
def defaultCell : Cell :=
  { col := 0, row := 0, state := CellState.init }

/-- Minesweeper board state, from class `Board`.  The private Python field
`_mines_placed` is rendered `mines_placed`. -/
structure Board where
  cols : Int
  rows : Int
  num_mines : Int
  cells : List Cell
  mines_placed : Bool
  revealed_count : Int
  game_over : Bool
  win : Bool
deriving DecidableEq, Repr

/-- Python `range(n)` as a list of integers (empty for `n ≤ 0`). -/
def intRange (n : Int) : List Int :=
  (List.range n.toNat).map (fun (i : Nat) => (i : Int))

/-- The coordinate comprehension `[(c, r) for r in range(rows) for c in range(cols)]`. -/
def allPositions (cols rows : Int) : List (Int × Int) :=
  (intRange rows).flatMap (fun r => (intRange cols).map (fun c => (c, r)))

/-- `Board.__init__(cols, rows, mines)`: note that the constructor performs
no validation of its arguments. -/
def Board.init (cols rows mines : Int) : Board :=
  { cols := cols
    rows := rows
    num_mines := mines
    cells := (allPositions cols rows).map
      (fun p => { col := p.1, row := p.2, state := CellState.init })
    mines_placed := false
    revealed_count := 0
    game_over := false
    win := false }

/-- `Board.index(col, row) = row * cols + col`. -/
def Board.index (b : Board) (col row : Int) : Int :=
  row * b.cols + col

/-- `Board.is_inbounds(col, row)`. -/
def Board.is_inbounds (b : Board) (col row : Int) : Bool :=
  decide (0 ≤ col ∧ col < b.cols ∧ 0 ≤ row ∧ row < b.rows)

/-- The eight offset deltas of `Board.neighbors`, in source order. -/
def deltas : List (Int × Int) :=
  [(-1, -1), (0, -1), (1, -1), (-1, 0), (1, 0), (-1, 1), (0, 1), (1, 1)]

/-- `Board.neighbors(col, row)`: the in-bounds cells among the eight
surrounding offsets, in the fixed delta order. -/
def Board.neighbors (b : Board) (col row : Int) : List (Int × Int) :=
  (deltas.map (fun d => (col + d.1, row + d.2))).filter
    (fun p => b.is_inbounds p.1 p.2)

/-- Lookup `self.cells[self.index(col, row)]`.  Valid for the in-bounds
coordinates the source uses; out-of-range lookups return `defaultCell`. -/
def Board.cellAt (b : Board) (col row : Int) : Cell :=
  b.cells.getD (b.index col row).toNat defaultCell

/-- In-place update `self.cells[self.index(col, row)].state = f(...)`;
a no-op when the index is out of range (never the case in the source). -/
def Board.modifyCell (b : Board) (col row : Int) (f : CellState → CellState) : Board :=
  if h : (b.index col row).toNat < b.cells.length then
    { b with
      cells := b.cells.set (b.index col row).toNat
        ({ b.cells.get ⟨(b.index col row).toNat, h⟩ with
           state := f (b.cells.get ⟨(b.index col row).toNat, h⟩).state }) }
  else b

/-- Python slice `l[:m]`: a negative bound counts from the end. -/
def pySlice (l : List α) (m : Int) : List α :=
  if m < 0 then l.take (l.length + m).toNat else l.take m.toNat

/-- The candidate pool of `place_mines`: all positions outside the
forbidden zone (the safe cell and its neighbors). -/
def Board.minePool (b : Board) (safe_col safe_row : Int) : List (Int × Int) :=
  let forbidden := (safe_col, safe_row) :: b.neighbors safe_col safe_row
  (allPositions b.cols b.rows).filter (fun pos => decide (pos ∉ forbidden))

/-- Count of mine neighbors,
`sum(1 for nc, nr in self.neighbors(c, r) if self.cells[...].state.is_mine)`. -/
def Board.countMineNbrs (b : Board) (col row : Int) : Nat :=
  ((b.neighbors col row).filter (fun p => (b.cellAt p.1 p.2).state.is_mine)).length

/-- Step 4 of `place_mines`: `self.cells[self.index(c, r)].state.is_mine = True`. -/
def Board.set_mine_at (bb : Board) (cr : Int × Int) : Board :=
  bb.modifyCell cr.1 cr.2 (fun s => { s with is_mine := true })

/-- Step 5 of `place_mines`: recompute `adjacent` for every non-mine cell.
Only the `adjacent` fields are written and only the `is_mine` fields are read,
so reading the mine layout from the pre-loop board is faithful to the in-place
Python loop. -/
def Board.compute_adjacents (b1 : Board) : Board :=
  { b1 with cells := b1.cells.map (fun cell =>
    if cell.state.is_mine then cell
    else { cell with state :=
      { cell.state with adjacent := (b1.countMineNbrs cell.col cell.row : Int) } }) }

/-- `Board.place_mines(safe_col, safe_row)`.  Steps follow the source:
build the pool, shuffle (`sigma`), mark the first `num_mines` positions as
mines, recompute `adjacent` for every non-mine cell, set the placed flag. -/
def Board.place_mines (b : Board)
    (sigma : List (Int × Int) → List (Int × Int)) (safe_col safe_row : Int) : Board :=
  let pool := b.minePool safe_col safe_row
  let shuffled := sigma pool
  let b1 : Board := (pySlice shuffled b.num_mines).foldl Board.set_mine_at b
  { b1.compute_adjacents with mines_placed := true }

/-- One execution of the iterative flood-fill loop of `Board.reveal`,
structurally recursive on a fuel argument.  The head of the stack list is
the top (Python pops and appends at the end).  The index guard is vacuous
for the boards and stacks the source produces — every stacked coordinate is
in bounds of a full cell list — and only makes the recursion total. -/
def floodLoop : Nat → Board → List (Int × Int) → Board
  | 0, b, _ => b
  | _ + 1, b, [] => b
  | fuel + 1, b, (c, r) :: rest =>
    let i := (b.index c r).toNat
    if h : i < b.cells.length then
      let cur : Cell := b.cells.get ⟨i, h⟩
      if cur.state.is_revealed then
        floodLoop fuel b rest
      else
        let b' := { b with
          cells := b.cells.set i { cur with state := { cur.state with is_revealed := true } },
          revealed_count := b.revealed_count + 1 }
        if cur.state.adjacent = 0 then
          let pushes := (b.neighbors c r).filter (fun q =>
            !(b'.cellAt q.1 q.2).state.is_revealed && !(b'.cellAt q.1 q.2).state.is_flagged)
          floodLoop fuel b' (pushes.reverse ++ rest)
        else
          floodLoop fuel b' rest
    else
      floodLoop fuel b rest

/-- `Board._reveal_all_mines()`. -/
def Board.reveal_all_mines (b : Board) : Board :=
  { b with cells := b.cells.map (fun cell =>
    if cell.state.is_mine then { cell with state := { cell.state with is_revealed := true } }
    else cell) }

/-- `Board._check_win()`. -/
def Board.check_win (b : Board) : Board :=
  if b.revealed_count = b.cols * b.rows - b.num_mines ∧ b.game_over = false then
    { b with win := true,
             cells := b.cells.map (fun cell =>
               if !cell.state.is_revealed && !cell.state.is_mine then
                 { cell with state := { cell.state with is_revealed := true } }
               else cell) }
  else
    b

/-- `Board.reveal(col, row)`.  The fuel `9 * length + 1` dominates the loop
measure `stack length + 9 * number of unrevealed cells`, so the loop always
drains its worklist before the fuel runs out. -/
def Board.reveal (b : Board)
    (sigma : List (Int × Int) → List (Int × Int)) (col row : Int) : Board :=
  if b.is_inbounds col row then
    let cell := b.cellAt col row
    if cell.state.is_revealed || cell.state.is_flagged then b
    else
      let b1 := if b.mines_placed then b else b.place_mines sigma col row
      if (b1.cellAt col row).state.is_mine then
        let b2 := b1.modifyCell col row (fun s => { s with is_revealed := true })
        Board.reveal_all_mines { b2 with game_over := true }
      else
        Board.check_win (floodLoop (9 * b1.cells.length + 1) b1 [(col, row)])
  else
    b

/-- `Board.toggle_flag(col, row)`. -/
def Board.toggle_flag (b : Board) (col row : Int) : Board :=
  if b.is_inbounds col row then
    if b.game_over || b.win then b
    else
      let cell := b.cellAt col row
      if cell.state.is_revealed then b
      else b.modifyCell col row (fun s => { s with is_flagged := !s.is_flagged })
  else
    b

/-- `Board.flagged_count()`: the body is `pass`, so the call returns
Python `None`, modelled as `Option Int` with value `none`. -/
def Board.flagged_count (_ : Board) : Option Int :=
  none

/-! ## Grid and index lemmas -/

/-- The coordinate pair stored in each cell, used to state grid coherence. -/
def gridOf (b : Board) : List (Int × Int) :=
  b.cells.map (fun cell => (cell.col, cell.row))

theorem mem_intRange {n x : Int} : x ∈ intRange n ↔ 0 ≤ x ∧ x < n := by
  unfold intRange
  rw [List.mem_map]
  constructor
  · rintro ⟨i, hi, hx⟩
    rw [List.mem_range] at hi
    have hx2 : (i : Int) = x := hx
    omega
  · intro h
    refine ⟨x.toNat, ?_, ?_⟩
    · rw [List.mem_range]
      omega
    · show ((x.toNat : Nat) : Int) = x
      omega

theorem mem_allPositions {cols rows : Int} {p : Int × Int} :
    p ∈ allPositions cols rows ↔ 0 ≤ p.1 ∧ p.1 < cols ∧ 0 ≤ p.2 ∧ p.2 < rows := by
  simp only [allPositions, List.mem_flatMap, List.mem_map]
  constructor
  · rintro ⟨r, hr, c, hc, rfl⟩
    rw [mem_intRange] at hr hc
    exact ⟨hc.1, hc.2, hr.1, hr.2⟩
  · rintro ⟨h1, h2, h3, h4⟩
    exact ⟨p.2, mem_intRange.mpr ⟨h3, h4⟩, p.1, mem_intRange.mpr ⟨h1, h2⟩, rfl⟩

theorem intGrid (m k : Nat) :
    (List.range m).flatMap (fun (r : Nat) => (List.range k).map (fun (c : Nat) => ((c : Int), (r : Int)))) =
      (List.range (m * k)).map (fun i => (((i % k : Nat) : Int), ((i / k : Nat) : Int))) := by
  rcases Nat.eq_zero_or_pos k with hk | hk
  · subst hk
    simp
  · induction m with
    | zero => simp
    | succ n ih =>
      rw [List.range_succ, List.flatMap_append, ih, Nat.succ_mul, List.range_add,
        List.map_append, List.map_map]
      congr 1
      simp only [List.flatMap_cons, List.flatMap_nil, List.append_nil]
      apply List.map_congr_left
      intro c hc
      rw [List.mem_range] at hc
      have hmod : (n * k + c) % k = c := by
        rw [Nat.mul_comm n k, Nat.mul_add_mod]
        exact Nat.mod_eq_of_lt hc
      have hdiv : (n * k + c) / k = n := by
        rw [Nat.mul_comm n k, Nat.mul_add_div hk, Nat.div_eq_of_lt hc]
        omega
      simp only [Function.comp_apply, hmod, hdiv]

theorem allPositions_eq (cols rows : Int) :
    allPositions cols rows =
      (List.range (rows.toNat * cols.toNat)).map
        (fun i => (((i % cols.toNat : Nat) : Int), ((i / cols.toNat : Nat) : Int))) := by
  unfold allPositions intRange
  rw [List.flatMap_map, ← intGrid]
  apply List.flatMap_congr
  intro r _
  rw [List.map_map]
  rfl
theorem length_allPositions (cols rows : Int) :
    (allPositions cols rows).length = rows.toNat * cols.toNat := by
  rw [allPositions_eq, List.length_map, List.length_range]

theorem nodup_allPositions (cols rows : Int) : (allPositions cols rows).Nodup := by
  rw [allPositions_eq]
  refine List.Nodup.map_on ?_ (List.nodup_range _)
  intro x hx y hy hxy
  rw [List.mem_range] at hx hy
  have h1 : x % cols.toNat = y % cols.toNat := by
    have h := congrArg Prod.fst hxy
    simp only at h
    exact_mod_cast h
  have h2 : x / cols.toNat = y / cols.toNat := by
    have h := congrArg Prod.snd hxy
    simp only at h
    exact_mod_cast h
  calc x = cols.toNat * (x / cols.toNat) + x % cols.toNat := (Nat.div_add_mod x _).symm
    _ = cols.toNat * (y / cols.toNat) + y % cols.toNat := by rw [h1, h2]
    _ = y := Nat.div_add_mod y _

theorem is_inbounds_iff {b : Board} {c r : Int} :
    b.is_inbounds c r = true ↔ 0 ≤ c ∧ c < b.cols ∧ 0 ≤ r ∧ r < b.rows := by
  rw [Board.is_inbounds, decide_eq_true_iff]

theorem index_nonneg {b : Board} {c r : Int}
    (h : b.is_inbounds c r = true) : 0 ≤ b.index c r := by
  rw [is_inbounds_iff] at h
  obtain ⟨h1, h2, h3, h4⟩ := h
  have hm : 0 ≤ r * b.cols := mul_nonneg h3 (le_of_lt (lt_of_le_of_lt h1 h2))
  unfold Board.index
  linarith

theorem index_lt {b : Board} {c r : Int}
    (h : b.is_inbounds c r = true) : b.index c r < b.rows * b.cols := by
  rw [is_inbounds_iff] at h
  obtain ⟨h1, h2, h3, h4⟩ := h
  have hc : 0 < b.cols := lt_of_le_of_lt h1 h2
  unfold Board.index
  calc r * b.cols + c < r * b.cols + b.cols := by linarith
    _ = (r + 1) * b.cols := by ring
    _ ≤ b.rows * b.cols := mul_le_mul_of_nonneg_right (by omega) (le_of_lt hc)

theorem index_toNat_lt {b : Board} {c r : Int}
    (h : b.is_inbounds c r = true) : (b.index c r).toNat < b.rows.toNat * b.cols.toNat := by
  have hlt := index_lt h
  have hnn := index_nonneg h
  rw [is_inbounds_iff] at h
  have hcast : ((b.rows.toNat * b.cols.toNat : Nat) : Int) = b.rows * b.cols := by
    push_cast
    rw [Int.toNat_of_nonneg (by omega : (0:Int) ≤ b.rows),
      Int.toNat_of_nonneg (by omega : (0:Int) ≤ b.cols)]
  generalize hP : b.rows * b.cols = P at hlt hcast
  generalize hQ : b.rows.toNat * b.cols.toNat = Q at hcast ⊢
  omega

theorem index_inj {b : Board} {c1 r1 c2 r2 : Int}
    (h1 : b.is_inbounds c1 r1 = true) (h2 : b.is_inbounds c2 r2 = true)
    (he : b.index c1 r1 = b.index c2 r2) : c1 = c2 ∧ r1 = r2 := by
  rw [is_inbounds_iff] at h1 h2
  obtain ⟨a1, a2, a3, a4⟩ := h1
  obtain ⟨b1, b2, b3, b4⟩ := h2
  unfold Board.index at he
  have hc : 0 < b.cols := lt_of_le_of_lt a1 a2
  have hkey : (r1 - r2) * b.cols = c2 - c1 := by linear_combination he
  have hr : r1 = r2 := by
    by_contra hne
    have habs : 1 ≤ |r1 - r2| := by
      rcases lt_or_gt_of_ne hne with h | h
      · rw [abs_of_neg (by omega : r1 - r2 < 0)]
        omega
      · rw [abs_of_pos (by omega : 0 < r1 - r2)]
        omega
    have hge : b.cols ≤ |r1 - r2| * b.cols := le_mul_of_one_le_left (le_of_lt hc) habs
    rw [← abs_of_pos hc, ← abs_mul, hkey] at hge
    rw [abs_of_pos hc] at hge
    have hlt2 : |c2 - c1| < b.cols := abs_lt.mpr ⟨by omega, by omega⟩
    linarith
  subst hr
  refine ⟨?_, rfl⟩
  have h0 : (0:Int) = c2 - c1 := by
    have := hkey
    simpa using this
  omega

theorem index_toNat_inj {b : Board} {c1 r1 c2 r2 : Int}
    (h1 : b.is_inbounds c1 r1 = true) (h2 : b.is_inbounds c2 r2 = true)
    (he : (b.index c1 r1).toNat = (b.index c2 r2).toNat) : c1 = c2 ∧ r1 = r2 := by
  have n1 := index_nonneg h1
  have n2 := index_nonneg h2
  exact index_inj h1 h2 (by omega)

theorem getElem?_allPositions {cols rows c r : Int}
    (h1 : 0 ≤ c) (h2 : c < cols) (h3 : 0 ≤ r) (h4 : r < rows) :
    (allPositions cols rows)[(r * cols + c).toNat]? = some (c, r) := by
  have hc0 : 0 < cols := lt_of_le_of_lt h1 h2
  have hr0 : 0 < rows := lt_of_le_of_lt h3 h4
  have hcast : ((r.toNat * cols.toNat : Nat) : Int) = r * cols := by
    push_cast
    rw [Int.toNat_of_nonneg h3, Int.toNat_of_nonneg (le_of_lt hc0)]
  have hi : (r * cols + c).toNat = r.toNat * cols.toNat + c.toNat := by
    generalize hM : r * cols = M at hcast ⊢
    generalize hK : r.toNat * cols.toNat = K at hcast ⊢
    omega
  have hcl : c.toNat < cols.toNat := by omega
  have hbound : r.toNat * cols.toNat + c.toNat < rows.toNat * cols.toNat := by
    calc r.toNat * cols.toNat + c.toNat
        < r.toNat * cols.toNat + cols.toNat := Nat.add_lt_add_left hcl _
      _ = (r.toNat + 1) * cols.toNat := by ring
      _ ≤ rows.toNat * cols.toNat := Nat.mul_le_mul_right _ (by omega)
  rw [allPositions_eq, List.getElem?_map, hi, List.getElem?_range hbound]
  have hmod : (r.toNat * cols.toNat + c.toNat) % cols.toNat = c.toNat := by
    rw [Nat.mul_comm, Nat.mul_add_mod]
    exact Nat.mod_eq_of_lt hcl
  have hdiv : (r.toNat * cols.toNat + c.toNat) / cols.toNat = r.toNat := by
    rw [Nat.mul_comm, Nat.mul_add_div (by omega), Nat.div_eq_of_lt hcl]
    omega
  simp only [Option.map_some', hmod, hdiv]
  rw [Int.toNat_of_nonneg h1, Int.toNat_of_nonneg h3]

/-! ## Neighbors lemmas -/

theorem nodup_deltas : deltas.Nodup := by decide

theorem mem_neighbors {b : Board} {c r : Int} {q : Int × Int} :
    q ∈ b.neighbors c r ↔ b.is_inbounds q.1 q.2 = true ∧ (q.1 - c, q.2 - r) ∈ deltas := by
  unfold Board.neighbors
  rw [List.mem_filter, List.mem_map]
  constructor
  · rintro ⟨⟨d, hd, rfl⟩, hin⟩
    refine ⟨hin, ?_⟩
    simpa using hd
  · rintro ⟨hin, hd⟩
    refine ⟨⟨(q.1 - c, q.2 - r), hd, ?_⟩, hin⟩
    show (c + (q.1 - c), r + (q.2 - r)) = q
    rw [Prod.ext_iff]
    constructor <;> simp

theorem neighbors_inbounds {b : Board} {c r : Int} {q : Int × Int}
    (h : q ∈ b.neighbors c r) : b.is_inbounds q.1 q.2 = true :=
  (mem_neighbors.mp h).1

theorem neg_mem_deltas {d : Int × Int} (h : d ∈ deltas) : (-d.1, -d.2) ∈ deltas := by
  fin_cases h <;> decide

theorem neighbors_symm {b : Board} {p q : Int × Int}
    (hp : b.is_inbounds p.1 p.2 = true) :
    q ∈ b.neighbors p.1 p.2 → p ∈ b.neighbors q.1 q.2 := by
  intro h
  rw [mem_neighbors] at h ⊢
  refine ⟨hp, ?_⟩
  have h2 := neg_mem_deltas h.2
  have e : (p.1 - q.1, p.2 - q.2) = (-(q.1 - p.1), -(q.2 - p.2)) := by
    rw [Prod.mk.injEq]
    constructor <;> ring
  rw [e]
  exact h2

theorem self_not_mem_neighbors {b : Board} {c r : Int} : (c, r) ∉ b.neighbors c r := by
  intro h
  rw [mem_neighbors] at h
  have h2 := h.2
  have e : ((c, r).1 - c, (c, r).2 - r) = ((0 : Int), (0 : Int)) := by
    rw [Prod.mk.injEq]
    constructor <;> simp
  rw [e] at h2
  exact absurd h2 (by decide)

theorem neighbors_length_le (b : Board) (c r : Int) : (b.neighbors c r).length ≤ 8 := by
  unfold Board.neighbors
  calc (List.filter _ _).length ≤ ((deltas.map _).length) := List.length_filter_le _ _
    _ = 8 := by rw [List.length_map]; rfl

theorem nodup_neighbors (b : Board) (c r : Int) : (b.neighbors c r).Nodup := by
  unfold Board.neighbors
  apply List.Nodup.filter
  refine List.Nodup.map_on ?_ nodup_deltas
  intro x hx y hy hxy
  have e1 : c + x.1 = c + y.1 := congrArg Prod.fst hxy
  have e2 : r + x.2 = r + y.2 := congrArg Prod.snd hxy
  rw [Prod.ext_iff]
  constructor <;> omega

theorem length_ge_of_three_mem {l : List (Int × Int)} {p1 p2 p3 : Int × Int}
    (h1 : p1 ∈ l) (h2 : p2 ∈ l) (h3 : p3 ∈ l)
    (d12 : p1 ≠ p2) (d13 : p1 ≠ p3) (d23 : p2 ≠ p3) : 3 ≤ l.length := by
  have hs : [p1, p2, p3] ⊆ l := by
    intro x hx
    simp only [List.mem_cons, List.not_mem_nil, or_false] at hx
    rcases hx with rfl | rfl | rfl
    · exact h1
    · exact h2
    · exact h3
  have hnd : ([p1, p2, p3] : List (Int × Int)).Nodup := by
    simp [d12, d13, d23]
  have hle := (List.subperm_of_subset hnd hs).length_le
  simpa using hle

theorem three_le_neighbors_length {b : Board} {c r : Int}
    (hin : b.is_inbounds c r = true) (hc2 : 2 ≤ b.cols) (hr2 : 2 ≤ b.rows) :
    3 ≤ (b.neighbors c r).length := by
  rw [is_inbounds_iff] at hin
  obtain ⟨h1, h2, h3, h4⟩ := hin
  obtain ⟨u, hud, hu0, hu1⟩ :
      ∃ u : Int, (u = 1 ∨ u = -1) ∧ 0 ≤ c + u ∧ c + u < b.cols := by
    by_cases hc0 : c = 0
    · exact ⟨1, Or.inl rfl, by omega, by omega⟩
    · exact ⟨-1, Or.inr rfl, by omega, by omega⟩
  obtain ⟨v, hvd, hv0, hv1⟩ :
      ∃ v : Int, (v = 1 ∨ v = -1) ∧ 0 ≤ r + v ∧ r + v < b.rows := by
    by_cases hr0 : r = 0
    · exact ⟨1, Or.inl rfl, by omega, by omega⟩
    · exact ⟨-1, Or.inr rfl, by omega, by omega⟩
  have hune : u ≠ 0 := by rcases hud with rfl | rfl <;> norm_num
  have hvne : v ≠ 0 := by rcases hvd with rfl | rfl <;> norm_num
  have m1 : (c + u, r) ∈ b.neighbors c r := by
    rw [mem_neighbors, is_inbounds_iff]
    refine ⟨⟨hu0, hu1, h3, h4⟩, ?_⟩
    have e : ((c + u, r).1 - c, (c + u, r).2 - r) = (u, (0 : Int)) := by
      rw [Prod.mk.injEq]
      constructor <;> simp
    rw [e]
    rcases hud with rfl | rfl <;> decide
  have m2 : (c, r + v) ∈ b.neighbors c r := by
    rw [mem_neighbors, is_inbounds_iff]
    refine ⟨⟨h1, h2, hv0, hv1⟩, ?_⟩
    have e : ((c, r + v).1 - c, (c, r + v).2 - r) = ((0 : Int), v) := by
      rw [Prod.mk.injEq]
      constructor <;> simp
    rw [e]
    rcases hvd with rfl | rfl <;> decide
  have m3 : (c + u, r + v) ∈ b.neighbors c r := by
    rw [mem_neighbors, is_inbounds_iff]
    refine ⟨⟨hu0, hu1, hv0, hv1⟩, ?_⟩
    have e : ((c + u, r + v).1 - c, (c + u, r + v).2 - r) = (u, v) := by
      rw [Prod.mk.injEq]
      constructor <;> simp
    rw [e]
    rcases hud with rfl | rfl <;> rcases hvd with rfl | rfl <;> decide
  apply length_ge_of_three_mem m1 m2 m3
  · intro he
    rw [Prod.mk.injEq] at he
    omega
  · intro he
    rw [Prod.mk.injEq] at he
    omega
  · intro he
    rw [Prod.mk.injEq] at he
    omega

/-! ## Reachable board states -/

/-- States reachable from a fresh `Board(cols, rows, mines)` by any sequence of public
calls: `reveal` (with any genuine shuffle of the mine pool) and `toggle_flag`. -/
inductive Reached (cols rows mines : Int) : Board → Prop where
  | init : Reached cols rows mines (Board.init cols rows mines)
  | reveal {b} (sigma : List (Int × Int) → List (Int × Int)) (col row : Int) :
      Reached cols rows mines b → (∀ l, (sigma l).Perm l) →
      Reached cols rows mines (b.reveal sigma col row)
  | flag {b} (col row : Int) :
      Reached cols rows mines b → Reached cols rows mines (b.toggle_flag col row)

/-- Reachability restricted to callers that stop issuing `reveal` once the game has
ended, as the presentation layer in `run.py` does (`toggle_flag` guards itself). -/
inductive ReachedGuarded (cols rows mines : Int) : Board → Prop where
  | init : ReachedGuarded cols rows mines (Board.init cols rows mines)
  | reveal {b} (sigma : List (Int × Int) → List (Int × Int)) (col row : Int) :
      ReachedGuarded cols rows mines b → (∀ l, (sigma l).Perm l) →
      b.game_over = false → b.win = false →
      ReachedGuarded cols rows mines (b.reveal sigma col row)
  | flag {b} (col row : Int) :
      ReachedGuarded cols rows mines b → ReachedGuarded cols rows mines (b.toggle_flag col row)

set_option maxRecDepth 10000

/-! ## Claims about the constructor, flagged_count, neighbors, and the
concrete 3×3 zero-mine scenario -/

/-- C8: constructing a Board never fails.  `Board(3, 3, 9)` violates
`mines ≤ cols*rows - 9` and `Board(0, 5, -1)` violates `cols > 0` and `mines ≥ 0`,
yet both construct ordinary boards (here: with the usual initial field values),
so the configuration validation the claim requires does not exist in the code. -/
theorem init_accepts_invalid_config :
    (Board.init 3 3 9).num_mines = 9 ∧ (Board.init 3 3 9).cells.length = 9 ∧
    (Board.init 3 3 9).mines_placed = false ∧ (Board.init 3 3 9).game_over = false ∧
    (Board.init 0 5 (-1)).num_mines = -1 ∧ (Board.init 0 5 (-1)).cells.length = 0 ∧
    (Board.init 0 5 (-1)).game_over = false := by decide

/-- C7: `flagged_count` is an unimplemented stub (`pass`): it returns Python `None`
(`none` in the model) even on a fresh 1×1 board whose number of flagged cells is 0. -/
theorem flagged_count_returns_none :
    (Board.init 1 1 0).flagged_count = none ∧
    (Board.init 1 1 0).cells.countP (fun cell => cell.state.is_flagged) = 0 := by decide

/-- C9: on a 3×3 board constructed with 0 mines, the first `reveal(0, 0)` (under any
shuffle) reveals all 9 cells, sets `win`, and leaves `revealed_count = 9`. -/
theorem zero_mine_first_reveal_wins
    (sigma : List (Int × Int) → List (Int × Int)) :
    ((Board.init 3 3 0).reveal sigma 0 0).cells.length = 9 ∧
    ((Board.init 3 3 0).reveal sigma 0 0).cells.all
      (fun cell => cell.state.is_revealed) = true ∧
    ((Board.init 3 3 0).reveal sigma 0 0).win = true ∧
    ((Board.init 3 3 0).reveal sigma 0 0).revealed_count = 9 := by
  have h : (Board.init 3 3 0).reveal sigma 0 0 = (Board.init 3 3 0).reveal id 0 0 := rfl
  rw [h]
  decide

/-- C10 counterexample: on the (constructible) 1×1 board the coordinate (0,0) is in
bounds but `neighbors(0,0)` is empty, refuting the claimed lower bound of 3. -/
theorem one_by_one_has_no_neighbors :
    (Board.init 1 1 0).is_inbounds 0 0 = true ∧
    (Board.init 1 1 0).neighbors 0 0 = [] ∧
    ¬ 3 ≤ ((Board.init 1 1 0).neighbors 0 0).length := by decide

/-- C10 (amended): for every in-bounds coordinate, `neighbors` returns only in-bounds
coordinates, never the coordinate itself, without duplicates, with length at most 8
(and at least 3 when both dimensions are at least 2), and membership is symmetric
between in-bounds coordinates. -/
theorem neighbors_properties (b : Board) (c r : Int)
    (hin : b.is_inbounds c r = true) :
    (∀ q ∈ b.neighbors c r, b.is_inbounds q.1 q.2 = true) ∧
    (c, r) ∉ b.neighbors c r ∧
    (b.neighbors c r).Nodup ∧
    (b.neighbors c r).length ≤ 8 ∧
    (2 ≤ b.cols → 2 ≤ b.rows → 3 ≤ (b.neighbors c r).length) ∧
    (∀ q : Int × Int, b.is_inbounds q.1 q.2 = true →
      (q ∈ b.neighbors c r ↔ (c, r) ∈ b.neighbors q.1 q.2)) := by
  refine ⟨fun q hq => neighbors_inbounds hq, self_not_mem_neighbors,
    nodup_neighbors b c r, neighbors_length_le b c r,
    fun hc2 hr2 => three_le_neighbors_length hin hc2 hr2, fun q hq => ⟨?_, ?_⟩⟩
  · intro h
    exact neighbors_symm hin h
  · intro h
    have := neighbors_symm (p := q) (q := (c, r)) hq h
    exact this

/-- Witness for the amended C10 claim at the 5×5 board and coordinate (2,2). -/
theorem neighbors_properties_witness :
    (Board.init 5 5 3).is_inbounds 2 2 = true ∧
    ((∀ q ∈ (Board.init 5 5 3).neighbors 2 2,
        (Board.init 5 5 3).is_inbounds q.1 q.2 = true) ∧
      ((2 : Int), (2 : Int)) ∉ (Board.init 5 5 3).neighbors 2 2 ∧
      ((Board.init 5 5 3).neighbors 2 2).Nodup ∧
      ((Board.init 5 5 3).neighbors 2 2).length ≤ 8 ∧
      (2 ≤ (Board.init 5 5 3).cols → 2 ≤ (Board.init 5 5 3).rows →
        3 ≤ ((Board.init 5 5 3).neighbors 2 2).length) ∧
      (∀ q : Int × Int, (Board.init 5 5 3).is_inbounds q.1 q.2 = true →
        (q ∈ (Board.init 5 5 3).neighbors 2 2 ↔
          ((2 : Int), (2 : Int)) ∈ (Board.init 5 5 3).neighbors q.1 q.2))) :=
  ⟨by decide, neighbors_properties (Board.init 5 5 3) 2 2 (by decide)⟩

/-! ## Counterexamples to the terminal-state, mutual-exclusion and
revealed_count claims -/

/-- C5 counterexample: on a 7×1 board with 1 mine (identity shuffle: the mine lands at
(2,0)), revealing the mine sets `game_over`, yet a further `reveal(4, 0)` still
mutates the board, so `reveal` is not a no-op in a terminal state. -/
theorem reveal_after_game_over_mutates :
    (((Board.init 7 1 1).reveal id 0 0).reveal id 2 0).game_over = true ∧
    ((((Board.init 7 1 1).reveal id 0 0).reveal id 2 0).reveal id 4 0) ≠
      (((Board.init 7 1 1).reveal id 0 0).reveal id 2 0) := by decide

/-- C6 counterexample: from a fresh 4×1 board with 2 mines (any shuffle places them at
(2,0) and (3,0)), `reveal(0,0)` wins the game and a subsequent `reveal(2,0)` on the
mine also sets `game_over`, reaching a state where `game_over` and `win` are both
true. -/
theorem win_and_game_over_both_true :
    Reached 4 1 2 (((Board.init 4 1 2).reveal id 0 0).reveal id 2 0) ∧
    (((Board.init 4 1 2).reveal id 0 0).reveal id 2 0).game_over = true ∧
    (((Board.init 4 1 2).reveal id 0 0).reveal id 2 0).win = true :=
  ⟨Reached.reveal id 2 0 (Reached.reveal id 0 0 Reached.init (fun l => List.Perm.refl l))
      (fun l => List.Perm.refl l),
    by decide, by decide⟩

/-- C4 counterexample: in the reachable 7×1 loss state, the mine revealed by the losing
click (and by the forced reveal of all mines) is not counted, so `revealed_count = 2`
while 3 cells have `is_revealed = true`. -/
theorem revealed_count_mismatch_after_loss :
    Reached 7 1 1 (((Board.init 7 1 1).reveal id 0 0).reveal id 2 0) ∧
    (((Board.init 7 1 1).reveal id 0 0).reveal id 2 0).revealed_count = 2 ∧
    (((Board.init 7 1 1).reveal id 0 0).reveal id 2 0).cells.countP
      (fun cell => cell.state.is_revealed) = 3 :=
  ⟨Reached.reveal id 2 0 (Reached.reveal id 0 0 Reached.init (fun l => List.Perm.refl l))
      (fun l => List.Perm.refl l),
    by decide, by decide⟩

/-- C5 (amended): once the game has ended (`game_over` or `win`), `toggle_flag` leaves
the entire board state unchanged (`reveal` has no such guard, see the counterexample). -/
theorem toggle_flag_terminal_noop (b : Board) (col row : Int)
    (h : b.game_over = true ∨ b.win = true) : b.toggle_flag col row = b := by
  unfold Board.toggle_flag
  rcases h with h | h <;> simp [h]

/-- Witness for the amended C5 claim at the reachable 7×1 loss state. -/
theorem toggle_flag_terminal_noop_witness :
    ((((Board.init 7 1 1).reveal id 0 0).reveal id 2 0).game_over = true ∨
      (((Board.init 7 1 1).reveal id 0 0).reveal id 2 0).win = true) ∧
    (((Board.init 7 1 1).reveal id 0 0).reveal id 2 0).toggle_flag 5 0 =
      (((Board.init 7 1 1).reveal id 0 0).reveal id 2 0) :=
  ⟨Or.inl (by decide),
    toggle_flag_terminal_noop (((Board.init 7 1 1).reveal id 0 0).reveal id 2 0) 5 0
      (Or.inl (by decide))⟩

/-! ## Cell lookup and update lemmas -/

/-- Number of mine cells on the board. -/
def mineCount (b : Board) : Nat :=
  b.cells.countP (fun cell => cell.state.is_mine)

theorem cellAt_eq_getElem {b : Board} {c r : Int}
    (hlt : (b.index c r).toNat < b.cells.length) :
    b.cellAt c r = b.cells[(b.index c r).toNat] := by
  unfold Board.cellAt
  rw [List.getD_eq_getElem?_getD, List.getElem?_eq_getElem hlt]
  rfl

theorem cellAt_mem {b : Board} {c r : Int}
    (hlt : (b.index c r).toNat < b.cells.length) : b.cellAt c r ∈ b.cells := by
  rw [cellAt_eq_getElem hlt]
  exact List.getElem_mem hlt

theorem index_toNat_lt_length {b : Board} {c r : Int}
    (hin : b.is_inbounds c r = true)
    (hlen : b.cells.length = b.rows.toNat * b.cols.toNat) :
    (b.index c r).toNat < b.cells.length := by
  rw [hlen]
  exact index_toNat_lt hin

theorem modifyCell_shape (b : Board) (c r : Int) (f : CellState → CellState) :
    ∃ cl, b.modifyCell c r f = { b with cells := cl } ∧ cl.length = b.cells.length := by
  unfold Board.modifyCell
  split
  · exact ⟨_, rfl, by simp⟩
  · exact ⟨b.cells, rfl, rfl⟩

theorem cellAt_set_board {b : Board} {i : Nat} {x : Cell} {c r : Int} :
    ({ b with cells := b.cells.set i x } : Board).cellAt c r =
      (b.cells.set i x).getD (b.index c r).toNat defaultCell := rfl

theorem cellAt_modifyCell_ne {b : Board} {c r c' r' : Int} {f : CellState → CellState}
    (hne : (b.index c' r').toNat ≠ (b.index c r).toNat) :
    (b.modifyCell c r f).cellAt c' r' = b.cellAt c' r' := by
  unfold Board.modifyCell
  split
  · rw [cellAt_set_board]
    unfold Board.cellAt
    rw [List.getD_eq_getElem?_getD, List.getD_eq_getElem?_getD,
      List.getElem?_set_ne (Ne.symm hne)]
  · rfl

theorem cellAt_modifyCell_self {b : Board} {c r : Int} {f : CellState → CellState}
    (hlt : (b.index c r).toNat < b.cells.length) :
    (b.modifyCell c r f).cellAt c r =
      { b.cellAt c r with state := f (b.cellAt c r).state } := by
  unfold Board.modifyCell
  rw [dif_pos hlt, cellAt_set_board]
  rw [List.getD_eq_getElem?_getD, List.getElem?_set_self hlt]
  rw [cellAt_eq_getElem hlt, List.get_eq_getElem]
  rfl

theorem countP_modifyCell (b : Board) (c r : Int) (f : CellState → CellState)
    (p : Cell → Bool) (hlt : (b.index c r).toNat < b.cells.length) :
    (b.modifyCell c r f).cells.countP p =
      (b.cells.countP p - (if p (b.cellAt c r) then 1 else 0)) +
        (if p { b.cellAt c r with state := f (b.cellAt c r).state } then 1 else 0) := by
  unfold Board.modifyCell
  rw [dif_pos hlt]
  show (b.cells.set _ _).countP p = _
  rw [List.countP_set p b.cells _ _ hlt, cellAt_eq_getElem hlt, List.get_eq_getElem]

/-- A cell update that preserves a projection leaves that projection of every
lookup unchanged (used for `compute_adjacents`, `reveal_all_mines`, `check_win`). -/
theorem cellAt_map_proj {α : Type} (pi : Cell → α) (b : Board) (f : Cell → Cell)
    (c r : Int) (hf : ∀ cell, pi (f cell) = pi cell) :
    pi (({ b with cells := b.cells.map f } : Board).cellAt c r) = pi (b.cellAt c r) := by
  show pi ((b.cells.map f).getD (b.index c r).toNat defaultCell) = _
  unfold Board.cellAt
  rw [List.getD_eq_getElem?_getD, List.getD_eq_getElem?_getD, List.getElem?_map]
  cases h : b.cells[(b.index c r).toNat]? with
  | none => simp
  | some cell => simp [hf]

theorem neighbors_eq_of_dims {b b' : Board} (hc : b'.cols = b.cols)
    (hr : b'.rows = b.rows) (c r : Int) : b'.neighbors c r = b.neighbors c r := by
  unfold Board.neighbors Board.is_inbounds
  rw [hc, hr]

theorem countMineNbrs_congr {b b' : Board} (hc : b'.cols = b.cols) (hr : b'.rows = b.rows)
    (hm : ∀ c r, (b'.cellAt c r).state.is_mine = (b.cellAt c r).state.is_mine)
    (c r : Int) : b'.countMineNbrs c r = b.countMineNbrs c r := by
  unfold Board.countMineNbrs
  rw [neighbors_eq_of_dims hc hr]
  congr 1
  apply List.filter_congr
  intro p _
  rw [hm]

/-! ## Mine placement: first-click safety and adjacency -/

theorem mem_minePool {b : Board} {sc sr : Int} {p : Int × Int} :
    p ∈ b.minePool sc sr ↔ p ∈ allPositions b.cols b.rows ∧
      p ≠ (sc, sr) ∧ p ∉ b.neighbors sc sr := by
  unfold Board.minePool
  rw [List.mem_filter]
  constructor
  · rintro ⟨hm, hd⟩
    have hd2 := of_decide_eq_true hd
    rw [List.mem_cons] at hd2
    push_neg at hd2
    exact ⟨hm, hd2.1, hd2.2⟩
  · rintro ⟨hm, h1, h2⟩
    refine ⟨hm, decide_eq_true ?_⟩
    rw [List.mem_cons]
    push_neg
    exact ⟨h1, h2⟩

theorem nodup_minePool (b : Board) (sc sr : Int) : (b.minePool sc sr).Nodup :=
  List.Nodup.filter _ (nodup_allPositions b.cols b.rows)

theorem set_mine_at_fields (b : Board) (p : Int × Int) :
    ∃ cl, b.set_mine_at p = { b with cells := cl } ∧ cl.length = b.cells.length :=
  modifyCell_shape b p.1 p.2 _

theorem mineCount_set_mine_at {b : Board} {p : Int × Int}
    (hlt : (b.index p.1 p.2).toNat < b.cells.length)
    (hfresh : (b.cellAt p.1 p.2).state.is_mine = false) :
    mineCount (b.set_mine_at p) = mineCount b + 1 := by
  unfold mineCount Board.set_mine_at
  rw [countP_modifyCell _ _ _ _ _ hlt]
  simp [hfresh]

theorem set_mines_foldl (coords : List (Int × Int)) (b : Board)
    (hlen : b.cells.length = b.rows.toNat * b.cols.toNat)
    (hin : ∀ p ∈ coords, b.is_inbounds p.1 p.2 = true)
    (hnd : coords.Nodup)
    (hfresh : ∀ p ∈ coords, (b.cellAt p.1 p.2).state.is_mine = false) :
    (coords.foldl Board.set_mine_at b).cols = b.cols ∧
    (coords.foldl Board.set_mine_at b).rows = b.rows ∧
    (coords.foldl Board.set_mine_at b).num_mines = b.num_mines ∧
    (coords.foldl Board.set_mine_at b).mines_placed = b.mines_placed ∧
    (coords.foldl Board.set_mine_at b).cells.length = b.cells.length ∧
    mineCount (coords.foldl Board.set_mine_at b) = mineCount b + coords.length ∧
    (∀ q : Int × Int, b.is_inbounds q.1 q.2 = true → q ∉ coords →
      (coords.foldl Board.set_mine_at b).cellAt q.1 q.2 = b.cellAt q.1 q.2) := by
  induction coords generalizing b with
  | nil => simp
  | cons p rest ih =>
    have hinp : b.is_inbounds p.1 p.2 = true := hin p (List.mem_cons_self p rest)
    have hltp : (b.index p.1 p.2).toNat < b.cells.length := index_toNat_lt_length hinp hlen
    obtain ⟨cl, hshape, hlencl⟩ := set_mine_at_fields b p
    have hcols : (b.set_mine_at p).cols = b.cols := by rw [hshape]
    have hrows : (b.set_mine_at p).rows = b.rows := by rw [hshape]
    have hnum : (b.set_mine_at p).num_mines = b.num_mines := by rw [hshape]
    have hmp : (b.set_mine_at p).mines_placed = b.mines_placed := by rw [hshape]
    have hlen1 : (b.set_mine_at p).cells.length = b.cells.length := by rw [hshape]; exact hlencl
    have hinb' : ∀ c r, (b.set_mine_at p).is_inbounds c r = b.is_inbounds c r := by
      intro c r
      rw [hshape]
      rfl
    have hcellne : ∀ q : Int × Int, b.is_inbounds q.1 q.2 = true → q ≠ p →
        (b.set_mine_at p).cellAt q.1 q.2 = b.cellAt q.1 q.2 := by
      intro q hcr hne
      unfold Board.set_mine_at
      apply cellAt_modifyCell_ne
      intro heq
      obtain ⟨e1, e2⟩ := index_toNat_inj hcr hinp heq
      apply hne
      rw [Prod.ext_iff]
      exact ⟨e1, e2⟩
    have hlen2 : (b.set_mine_at p).cells.length =
        (b.set_mine_at p).rows.toNat * (b.set_mine_at p).cols.toNat := by
      rw [hlen1, hcols, hrows, hlen]
    have hin2 : ∀ q ∈ rest, (b.set_mine_at p).is_inbounds q.1 q.2 = true := by
      intro q hq
      rw [hinb' q.1 q.2]
      exact hin q (List.mem_cons_of_mem p hq)
    have hnd2 : rest.Nodup := hnd.of_cons
    have hpnotin : p ∉ rest := (List.nodup_cons.mp hnd).1
    have hfresh2 : ∀ q ∈ rest, ((b.set_mine_at p).cellAt q.1 q.2).state.is_mine = false := by
      intro q hq
      have hq' : q ≠ p := fun he => hpnotin (he ▸ hq)
      rw [hcellne q (hin q (List.mem_cons_of_mem p hq)) hq']
      exact hfresh q (List.mem_cons_of_mem p hq)
    have hfreshp : (b.cellAt p.1 p.2).state.is_mine = false :=
      hfresh p (List.mem_cons_self p rest)
    have hmc : mineCount (b.set_mine_at p) = mineCount b + 1 :=
      mineCount_set_mine_at hltp hfreshp
    have IH := ih (b.set_mine_at p) hlen2 hin2 hnd2 hfresh2
    rw [List.foldl_cons]
    refine ⟨?_, ?_, ?_, ?_, ?_, ?_, ?_⟩
    · rw [IH.1, hcols]
    · rw [IH.2.1, hrows]
    · rw [IH.2.2.1, hnum]
    · rw [IH.2.2.2.1, hmp]
    · rw [IH.2.2.2.2.1, hlen1]
    · rw [IH.2.2.2.2.2.1, hmc, List.length_cons]
      omega
    · intro q hq hnotin
      rw [List.mem_cons] at hnotin
      push_neg at hnotin
      rw [IH.2.2.2.2.2.2 q (by rw [hinb']; exact hq) hnotin.2]
      exact hcellne q hq hnotin.1

theorem place_mines_eq (b : Board) (sigma : List (Int × Int) → List (Int × Int))
    (sc sr : Int) :
    b.place_mines sigma sc sr =
      { ((pySlice (sigma (b.minePool sc sr)) b.num_mines).foldl
          Board.set_mine_at b).compute_adjacents with mines_placed := true } := rfl

theorem mineCount_compute_adjacents (b1 : Board) :
    mineCount b1.compute_adjacents = mineCount b1 := by
  unfold mineCount Board.compute_adjacents
  show (b1.cells.map _).countP _ = _
  rw [List.countP_map]
  apply List.countP_congr
  intro cell _
  show (if cell.state.is_mine then cell else _).state.is_mine = true ↔ _
  split
  · simp_all
  · simp_all

theorem cellAt_compute_adjacents_is_mine (b1 : Board) (c r : Int) :
    ((b1.compute_adjacents).cellAt c r).state.is_mine = ((b1.cellAt c r)).state.is_mine := by
  unfold Board.compute_adjacents
  apply cellAt_map_proj (fun cell => cell.state.is_mine)
  intro cell
  split <;> rfl

/-- Core specification of `place_mines`: safe zone mine-free and exact mine count. -/
theorem place_mines_spec (b : Board)
    (sigma : List (Int × Int) → List (Int × Int)) (safe_col safe_row : Int)
    (hperm : ∀ l, (sigma l).Perm l)
    (hin : b.is_inbounds safe_col safe_row = true)
    (hlen : b.cells.length = b.rows.toNat * b.cols.toNat)
    (hfresh : ∀ cell ∈ b.cells, cell.state.is_mine = false)
    (hm0 : 0 ≤ b.num_mines)
    (hmle : b.num_mines ≤ ((b.minePool safe_col safe_row).length : Int)) :
    ((b.place_mines sigma safe_col safe_row).cellAt safe_col safe_row).state.is_mine
        = false ∧
    (∀ q ∈ b.neighbors safe_col safe_row,
      ((b.place_mines sigma safe_col safe_row).cellAt q.1 q.2).state.is_mine = false) ∧
    (mineCount (b.place_mines sigma safe_col safe_row) : Int) = b.num_mines := by
  have hslice : pySlice (sigma (b.minePool safe_col safe_row)) b.num_mines =
      (sigma (b.minePool safe_col safe_row)).take b.num_mines.toNat := by
    unfold pySlice
    rw [if_neg (not_lt.mpr hm0)]
  have hsub : ∀ p ∈ (sigma (b.minePool safe_col safe_row)).take b.num_mines.toNat,
      p ∈ b.minePool safe_col safe_row := by
    intro p hp
    exact ((hperm _).mem_iff).mp (List.take_subset _ _ hp)
  have hmnd : ((sigma (b.minePool safe_col safe_row)).take b.num_mines.toNat).Nodup :=
    List.Nodup.sublist (List.take_sublist _ _)
      (((hperm _).nodup_iff).mpr (nodup_minePool b _ _))
  have hmlen : ((sigma (b.minePool safe_col safe_row)).take b.num_mines.toNat).length =
      b.num_mines.toNat := by
    rw [List.length_take, (hperm _).length_eq]
    omega
  have hinm : ∀ p ∈ (sigma (b.minePool safe_col safe_row)).take b.num_mines.toNat,
      b.is_inbounds p.1 p.2 = true := by
    intro p hp
    have hmem := (mem_minePool.mp (hsub p hp)).1
    rw [mem_allPositions] at hmem
    rw [is_inbounds_iff]
    exact hmem
  have hfreshm : ∀ p ∈ (sigma (b.minePool safe_col safe_row)).take b.num_mines.toNat,
      (b.cellAt p.1 p.2).state.is_mine = false := by
    intro p hp
    exact hfresh _ (cellAt_mem (index_toNat_lt_length (hinm p hp) hlen))
  have hF := set_mines_foldl ((sigma (b.minePool safe_col safe_row)).take b.num_mines.toNat)
    b hlen hinm hmnd hfreshm
  have hmc0 : mineCount b = 0 := by
    unfold mineCount
    rw [List.countP_eq_zero]
    intro cell hc
    rw [hfresh cell hc]
    exact Bool.false_ne_true
  have hstage : ∀ c r, ((b.place_mines sigma safe_col safe_row).cellAt c r).state.is_mine =
      ((((sigma (b.minePool safe_col safe_row)).take b.num_mines.toNat).foldl
        Board.set_mine_at b).cellAt c r).state.is_mine := by
    intro c r
    rw [place_mines_eq, hslice]
    exact cellAt_compute_adjacents_is_mine _ c r
  refine ⟨?_, ?_, ?_⟩
  · rw [hstage]
    have hni : (safe_col, safe_row) ∉
        (sigma (b.minePool safe_col safe_row)).take b.num_mines.toNat := by
      intro hmem
      exact (mem_minePool.mp (hsub _ hmem)).2.1 rfl
    rw [hF.2.2.2.2.2.2 (safe_col, safe_row) hin hni]
    exact hfresh _ (cellAt_mem (index_toNat_lt_length hin hlen))
  · intro q hq
    rw [hstage]
    have hqin : b.is_inbounds q.1 q.2 = true := neighbors_inbounds hq
    have hni : q ∉ (sigma (b.minePool safe_col safe_row)).take b.num_mines.toNat := by
      intro hmem
      exact (mem_minePool.mp (hsub _ hmem)).2.2 hq
    rw [hF.2.2.2.2.2.2 q hqin hni]
    exact hfresh _ (cellAt_mem (index_toNat_lt_length hqin hlen))
  · have hfinal : mineCount (b.place_mines sigma safe_col safe_row) =
        mineCount (((sigma (b.minePool safe_col safe_row)).take b.num_mines.toNat).foldl
          Board.set_mine_at b) := by
      rw [place_mines_eq, hslice]
      exact mineCount_compute_adjacents _
    rw [hfinal, hF.2.2.2.2.2.1, hmc0, hmlen]
    omega

/-- C1: first-click safety.  On a board whose cells are all still mine-free
(every board on which `place_mines` ever runs), with an in-bounds safe cell and
`0 ≤ num_mines ≤` the pool size, after `place_mines(safe_col, safe_row)` the
safe cell and all of its neighbors are mine-free and exactly `num_mines` cells
carry a mine. -/
theorem first_click_safety (b : Board)
    (sigma : List (Int × Int) → List (Int × Int)) (safe_col safe_row : Int)
    (hperm : ∀ l, (sigma l).Perm l)
    (hin : b.is_inbounds safe_col safe_row = true)
    (hlen : b.cells.length = b.rows.toNat * b.cols.toNat)
    (hfresh : ∀ cell ∈ b.cells, cell.state.is_mine = false)
    (hm0 : 0 ≤ b.num_mines)
    (hmle : b.num_mines ≤ ((b.minePool safe_col safe_row).length : Int)) :
    ((b.place_mines sigma safe_col safe_row).cellAt safe_col safe_row).state.is_mine
        = false ∧
    (∀ q ∈ b.neighbors safe_col safe_row,
      ((b.place_mines sigma safe_col safe_row).cellAt q.1 q.2).state.is_mine = false) ∧
    (mineCount (b.place_mines sigma safe_col safe_row) : Int) = b.num_mines :=
  place_mines_spec b sigma safe_col safe_row hperm hin hlen hfresh hm0 hmle

/-- Witness for C1 at the standard 9×9 board with 10 mines, safe cell (4,4),
identity shuffle. -/
theorem first_click_safety_witness :
    (∀ l : List (Int × Int), (id l).Perm l) ∧
    (Board.init 9 9 10).is_inbounds 4 4 = true ∧
    (Board.init 9 9 10).cells.length =
      (Board.init 9 9 10).rows.toNat * (Board.init 9 9 10).cols.toNat ∧
    (∀ cell ∈ (Board.init 9 9 10).cells, cell.state.is_mine = false) ∧
    0 ≤ (Board.init 9 9 10).num_mines ∧
    (Board.init 9 9 10).num_mines ≤ (((Board.init 9 9 10).minePool 4 4).length : Int) ∧
    ((((Board.init 9 9 10).place_mines id 4 4).cellAt 4 4).state.is_mine = false ∧
      (∀ q ∈ (Board.init 9 9 10).neighbors 4 4,
        (((Board.init 9 9 10).place_mines id 4 4).cellAt q.1 q.2).state.is_mine = false) ∧
      (mineCount ((Board.init 9 9 10).place_mines id 4 4) : Int) =
        (Board.init 9 9 10).num_mines) :=
  ⟨fun l => List.Perm.refl l, by decide, by decide, by decide, by decide, by decide,
    first_click_safety (Board.init 9 9 10) id 4 4 (fun l => List.Perm.refl l)
      (by decide) (by decide) (by decide) (by decide) (by decide)⟩

/-- Per-index adjacency specification of `place_mines`. -/
theorem place_adjacent_index (b : Board)
    (sigma : List (Int × Int) → List (Int × Int)) (safe_col safe_row : Int) :
    ∀ i (h : i < (b.place_mines sigma safe_col safe_row).cells.length),
      ((b.place_mines sigma safe_col safe_row).cells[i]).state.is_mine = false →
      ((b.place_mines sigma safe_col safe_row).cells[i]).state.adjacent =
        ((b.place_mines sigma safe_col safe_row).countMineNbrs
          ((b.place_mines sigma safe_col safe_row).cells[i]).col
          ((b.place_mines sigma safe_col safe_row).cells[i]).row : Int) := by
  intro i h hnm
  have hcells : (b.place_mines sigma safe_col safe_row).cells =
      ((pySlice (sigma (b.minePool safe_col safe_row)) b.num_mines).foldl
        Board.set_mine_at b).cells.map (fun cell =>
          if cell.state.is_mine then cell
          else { cell with state := { cell.state with adjacent :=
            (((pySlice (sigma (b.minePool safe_col safe_row)) b.num_mines).foldl
              Board.set_mine_at b).countMineNbrs cell.col cell.row : Int) } }) := rfl
  have hlen1 : i < ((pySlice (sigma (b.minePool safe_col safe_row)) b.num_mines).foldl
      Board.set_mine_at b).cells.length := by
    rw [hcells, List.length_map] at h
    exact h
  have hget : (b.place_mines sigma safe_col safe_row).cells[i] =
      (fun cell =>
        if cell.state.is_mine then cell
        else { cell with state := { cell.state with adjacent :=
          (((pySlice (sigma (b.minePool safe_col safe_row)) b.num_mines).foldl
            Board.set_mine_at b).countMineNbrs cell.col cell.row : Int) } })
        (((pySlice (sigma (b.minePool safe_col safe_row)) b.num_mines).foldl
          Board.set_mine_at b).cells[i]) := by
    simp only [hcells, List.getElem_map]
  by_cases hmine : (((pySlice (sigma (b.minePool safe_col safe_row)) b.num_mines).foldl
      Board.set_mine_at b).cells[i]).state.is_mine
  · rw [hget] at hnm
    dsimp only at hnm
    rw [if_pos hmine] at hnm
    rw [hmine] at hnm
    exact absurd hnm (by simp)
  · have hcongr : ∀ c r, (b.place_mines sigma safe_col safe_row).countMineNbrs c r =
        ((pySlice (sigma (b.minePool safe_col safe_row)) b.num_mines).foldl
          Board.set_mine_at b).countMineNbrs c r := by
      intro c r
      apply countMineNbrs_congr (by rfl) (by rfl)
      intro c' r'
      rw [place_mines_eq]
      exact cellAt_compute_adjacents_is_mine _ c' r'
    rw [hget]
    dsimp only
    rw [if_neg hmine]
    dsimp only
    rw [hcongr]

/-- C2: after `place_mines` completes, every non-mine cell's `adjacent` field
equals the exact count of mine cells among its up-to-8 in-bounds neighbors, as
computed by the same `neighbors` function. -/
theorem adjacency_correct_after_place (b : Board)
    (sigma : List (Int × Int) → List (Int × Int)) (safe_col safe_row : Int) :
    ∀ i (h : i < (b.place_mines sigma safe_col safe_row).cells.length),
      ((b.place_mines sigma safe_col safe_row).cells[i]).state.is_mine = false →
      ((b.place_mines sigma safe_col safe_row).cells[i]).state.adjacent =
        ((b.place_mines sigma safe_col safe_row).countMineNbrs
          ((b.place_mines sigma safe_col safe_row).cells[i]).col
          ((b.place_mines sigma safe_col safe_row).cells[i]).row : Int) :=
  place_adjacent_index b sigma safe_col safe_row

/-- Witness for C2 at the 4×1 board with 2 mines, safe cell (0,0), cell index 1. -/
theorem adjacency_correct_after_place_witness :
    1 < ((Board.init 4 1 2).place_mines id 0 0).cells.length ∧
    (((Board.init 4 1 2).place_mines id 0 0).cells.get
        ⟨1, by decide⟩).state.is_mine = false ∧
    (((Board.init 4 1 2).place_mines id 0 0).cells.get ⟨1, by decide⟩).state.adjacent =
      (((Board.init 4 1 2).place_mines id 0 0).countMineNbrs
        (((Board.init 4 1 2).place_mines id 0 0).cells.get ⟨1, by decide⟩).col
        (((Board.init 4 1 2).place_mines id 0 0).cells.get ⟨1, by decide⟩).row : Int) :=
  ⟨by decide, by decide,
    adjacency_correct_after_place (Board.init 4 1 2) id 0 0 1 (by decide) (by decide)⟩

/-! ## Skeleton preservation and counting utilities -/

/-- Number of unrevealed cells; it strictly decreases at every revealing step of
the flood loop, which is why fuel `9 * length + 1` always suffices. -/
def unrevealedCount (b : Board) : Nat :=
  b.cells.countP (fun cell => !cell.state.is_revealed)

/-- Termination measure of the flood loop. -/
def floodMeasure (b : Board) (stack : List (Int × Int)) : Nat :=
  stack.length + 9 * unrevealedCount b

/-- Everything about a cell except its revealed flag. -/
def cellSkel (cell : Cell) : Int × Int × Bool × Bool × Int :=
  (cell.col, cell.row, cell.state.is_mine, cell.state.is_flagged, cell.state.adjacent)

/-- All board data except revealed flags and `revealed_count`; the flood loop
preserves this. -/
def SameSkeleton (b b' : Board) : Prop :=
  b'.cols = b.cols ∧ b'.rows = b.rows ∧ b'.num_mines = b.num_mines ∧
  b'.mines_placed = b.mines_placed ∧ b'.game_over = b.game_over ∧ b'.win = b.win ∧
  b'.cells.map cellSkel = b.cells.map cellSkel

theorem SameSkeleton.refl (b : Board) : SameSkeleton b b :=
  ⟨rfl, rfl, rfl, rfl, rfl, rfl, rfl⟩

theorem SameSkeleton.trans {a b c : Board}
    (h1 : SameSkeleton a b) (h2 : SameSkeleton b c) : SameSkeleton a c := by
  obtain ⟨a1, a2, a3, a4, a5, a6, a7⟩ := h1
  obtain ⟨b1, b2, b3, b4, b5, b6, b7⟩ := h2
  exact ⟨b1.trans a1, b2.trans a2, b3.trans a3, b4.trans a4, b5.trans a5,
    b6.trans a6, b7.trans a7⟩

theorem SameSkeleton.length {b b' : Board} (h : SameSkeleton b b') :
    b'.cells.length = b.cells.length := by
  have h7 := h.2.2.2.2.2.2
  have := congrArg List.length h7
  simpa using this

theorem SameSkeleton.index_eq {b b' : Board} (h : SameSkeleton b b') (c r : Int) :
    b'.index c r = b.index c r := by
  unfold Board.index
  rw [h.1]

theorem SameSkeleton.inbounds_eq {b b' : Board} (h : SameSkeleton b b') (c r : Int) :
    b'.is_inbounds c r = b.is_inbounds c r := by
  unfold Board.is_inbounds
  rw [h.1, h.2.1]

theorem SameSkeleton.neighbors_eq {b b' : Board} (h : SameSkeleton b b') (c r : Int) :
    b'.neighbors c r = b.neighbors c r :=
  neighbors_eq_of_dims h.1 h.2.1 c r

theorem getD_skel {l l' : List Cell} (h : l'.map cellSkel = l.map cellSkel) (i : Nat) :
    cellSkel (l'.getD i defaultCell) = cellSkel (l.getD i defaultCell) := by
  rw [List.getD_eq_getElem?_getD, List.getD_eq_getElem?_getD]
  have h2 := congrArg (fun t => t[i]?) h
  simp only [List.getElem?_map] at h2
  cases h3 : l'[i]? with
  | none =>
    cases h4 : l[i]? with
    | none => rfl
    | some a2 =>
      rw [h3, h4] at h2
      simp at h2
  | some a =>
    cases h4 : l[i]? with
    | none =>
      rw [h3, h4] at h2
      simp at h2
    | some a2 =>
      rw [h3, h4] at h2
      simp only [Option.map_some'] at h2
      simpa using h2

theorem SameSkeleton.cellAt_skel {b b' : Board} (h : SameSkeleton b b') (c r : Int) :
    cellSkel (b'.cellAt c r) = cellSkel (b.cellAt c r) := by
  unfold Board.cellAt
  rw [h.index_eq]
  exact getD_skel h.2.2.2.2.2.2 _

theorem SameSkeleton.cellAt_mine {b b' : Board} (h : SameSkeleton b b') (c r : Int) :
    (b'.cellAt c r).state.is_mine = (b.cellAt c r).state.is_mine :=
  congrArg (fun t => t.2.2.1) (h.cellAt_skel c r)

theorem SameSkeleton.cellAt_flag {b b' : Board} (h : SameSkeleton b b') (c r : Int) :
    (b'.cellAt c r).state.is_flagged = (b.cellAt c r).state.is_flagged :=
  congrArg (fun t => t.2.2.2.1) (h.cellAt_skel c r)

theorem SameSkeleton.cellAt_adjacent {b b' : Board} (h : SameSkeleton b b') (c r : Int) :
    (b'.cellAt c r).state.adjacent = (b.cellAt c r).state.adjacent :=
  congrArg (fun t => t.2.2.2.2) (h.cellAt_skel c r)

theorem SameSkeleton.countMineNbrs_eq {b b' : Board} (h : SameSkeleton b b') (c r : Int) :
    b'.countMineNbrs c r = b.countMineNbrs c r :=
  countMineNbrs_congr h.1 h.2.1 h.cellAt_mine c r

theorem SameSkeleton.countP_skel (p : Int × Int × Bool × Bool × Int → Bool)
    {b b' : Board} (h : SameSkeleton b b') :
    b'.cells.countP (fun cell => p (cellSkel cell)) =
      b.cells.countP (fun cell => p (cellSkel cell)) := by
  have h2 := congrArg (List.countP p) h.2.2.2.2.2.2
  rwa [List.countP_map, List.countP_map] at h2

theorem SameSkeleton.mineCount_eq {b b' : Board} (h : SameSkeleton b b') :
    mineCount b' = mineCount b :=
  h.countP_skel (fun t => t.2.2.1)

theorem SameSkeleton.gridOf_eq {b b' : Board} (h : SameSkeleton b b') :
    gridOf b' = gridOf b := by
  have h2 := congrArg (List.map (fun t : Int × Int × Bool × Bool × Int => (t.1, t.2.1)))
    h.2.2.2.2.2.2
  unfold gridOf
  rwa [List.map_map, List.map_map] at h2

theorem map_set_self {α β : Type} (f : α → β) (l : List α) (i : Nat) (x : α)
    (hx : ∀ h : i < l.length, f x = f l[i]) :
    (l.set i x).map f = l.map f := by
  apply List.ext_getElem?
  intro j
  rw [List.getElem?_map, List.getElem?_map, List.getElem?_set]
  split
  · rename_i hij
    subst hij
    split
    · rename_i hlt
      rw [List.getElem?_eq_getElem hlt]
      simp only [Option.map_some']
      rw [hx hlt]
    · rename_i hge
      rw [List.getElem?_eq_none (by omega)]
  · rfl

/-! ## Projection-preserving updates and counting arguments -/

theorem countP_modifyCell_of_proj {b : Board} {c r : Int} {f : CellState → CellState}
    (p : Cell → Bool)
    (hpres : ∀ cell : Cell, p { cell with state := f cell.state } = p cell) :
    (b.modifyCell c r f).cells.countP p = b.cells.countP p := by
  by_cases hlt : (b.index c r).toNat < b.cells.length
  · rw [countP_modifyCell _ _ _ _ _ hlt, hpres]
    cases h : p (b.cellAt c r) with
    | false => simp [h]
    | true =>
      have hpos : 0 < b.cells.countP p :=
        List.countP_pos_iff.mpr ⟨b.cellAt c r, cellAt_mem hlt, h⟩
      split
      · omega
      · rename_i hcontra
        exact absurd rfl hcontra
  · unfold Board.modifyCell
    rw [dif_neg hlt]

theorem cellAt_modifyCell_state_proj {α : Type} (pi : CellState → α) {b : Board}
    {c r : Int} {f : CellState → CellState} (hf : ∀ s, pi (f s) = pi s) (c' r' : Int) :
    pi ((b.modifyCell c r f).cellAt c' r').state = pi (b.cellAt c' r').state := by
  by_cases heq : (b.index c' r').toNat = (b.index c r).toNat
  · by_cases hlt : (b.index c r).toNat < b.cells.length
    · obtain ⟨cl, hcl, hlencl⟩ := modifyCell_shape b c r f
      have hidx : ∀ a e : Int, (b.modifyCell c r f).index a e = b.index a e := by
        intro a e
        rw [hcl]
        rfl
      have h1 : (b.modifyCell c r f).cellAt c' r' = (b.modifyCell c r f).cellAt c r := by
        unfold Board.cellAt
        rw [hidx, hidx, heq]
      have h2 : b.cellAt c' r' = b.cellAt c r := by
        unfold Board.cellAt
        rw [heq]
      rw [h1, h2, cellAt_modifyCell_self hlt]
      exact hf _
    · unfold Board.modifyCell
      rw [dif_neg hlt]
  · rw [cellAt_modifyCell_ne heq]

theorem gridOf_modifyCell (b : Board) (c r : Int) (f : CellState → CellState) :
    gridOf (b.modifyCell c r f) = gridOf b := by
  unfold Board.modifyCell
  split
  · show gridOf { b with cells := _ } = gridOf b
    unfold gridOf
    apply map_set_self
    intro h
    rfl
  · rfl

theorem countP_or_le {α : Type} (p q : α → Bool) (l : List α) :
    l.countP (fun x => p x || q x) ≤ l.countP p + l.countP q := by
  induction l with
  | nil => simp
  | cons a t ih =>
    rw [List.countP_cons, List.countP_cons, List.countP_cons]
    cases hp : p a <;> cases hq : q a <;> simp [hp, hq] <;> omega

theorem countP_mem_le_length {l f : List (Int × Int)} (hnd : l.Nodup) :
    l.countP (fun x => decide (x ∈ f)) ≤ f.length := by
  induction f with
  | nil => simp
  | cons a fs ih =>
    have hsplit : l.countP (fun x => decide (x ∈ a :: fs)) ≤
        l.countP (fun x => decide (x = a)) + l.countP (fun x => decide (x ∈ fs)) := by
      calc l.countP (fun x => decide (x ∈ a :: fs))
          = l.countP (fun x => decide (x = a) || decide (x ∈ fs)) := by
            apply List.countP_congr
            intro x _
            simp [List.mem_cons]
        _ ≤ _ := countP_or_le _ _ l
    have hcnt1 : ∀ m : List (Int × Int), m.Nodup → m.countP (fun x => decide (x = a)) ≤ 1 := by
      intro m
      induction m with
      | nil =>
        intro _
        simp
      | cons x t ihm =>
        intro hm
        rcases List.nodup_cons.mp hm with ⟨hx, ht⟩
        rw [List.countP_cons]
        by_cases hxa : x = a
        · subst hxa
          have hz : t.countP (fun y => decide (y = x)) = 0 := by
            rw [List.countP_eq_zero]
            intro y hy
            simp only [decide_eq_true_eq]
            intro he
            exact hx (he ▸ hy)
          rw [hz]
          simp
        · rw [if_neg (by simp [hxa])]
          simpa using ihm ht
    have hcnt : l.countP (fun x => decide (x = a)) ≤ 1 := hcnt1 l hnd
    calc l.countP (fun x => decide (x ∈ a :: fs)) ≤ _ := hsplit
      _ ≤ 1 + fs.length := by
        have := ih
        omega
      _ = (a :: fs).length := by simp [Nat.add_comm]

theorem minePool_length_ge (b : Board) (sc sr : Int) :
    (allPositions b.cols b.rows).length ≤ (b.minePool sc sr).length + 9 := by
  have hpool : b.minePool sc sr = (allPositions b.cols b.rows).filter
      (fun pos => decide (pos ∉ (sc, sr) :: b.neighbors sc sr)) := rfl
  have hsplit := List.length_eq_countP_add_countP
    (fun pos => decide (pos ∉ (sc, sr) :: b.neighbors sc sr)) (allPositions b.cols b.rows)
  have hflt : (b.minePool sc sr).length = (allPositions b.cols b.rows).countP
      (fun pos => decide (pos ∉ (sc, sr) :: b.neighbors sc sr)) := by
    rw [hpool, ← List.countP_eq_length_filter]
  have hmem : (allPositions b.cols b.rows).countP
      (fun a => decide (¬decide (a ∉ (sc, sr) :: b.neighbors sc sr) = true)) ≤
        ((sc, sr) :: b.neighbors sc sr).length := by
    have he : (allPositions b.cols b.rows).countP
        (fun a => decide (¬decide (a ∉ (sc, sr) :: b.neighbors sc sr) = true)) =
          (allPositions b.cols b.rows).countP
            (fun a => decide (a ∈ (sc, sr) :: b.neighbors sc sr)) := by
      apply List.countP_congr
      intro x _
      simp
    rw [he]
    exact countP_mem_le_length (nodup_allPositions _ _)
  have hlen9 : ((sc, sr) :: b.neighbors sc sr).length ≤ 9 := by
    rw [List.length_cons]
    have := neighbors_length_le b sc sr
    omega
  omega

theorem forall_of_countP_eq {α : Type} {p q : α → Bool} (l : List α)
    (himp : ∀ x ∈ l, p x = true → q x = true)
    (he : l.countP p = l.countP q) : ∀ x ∈ l, q x = true → p x = true := by
  induction l with
  | nil => simp
  | cons a t ih =>
    have hmono := List.countP_mono_left (l := t) (p := p) (q := q)
      (fun x hx => himp x (List.mem_cons_of_mem a hx))
    rw [List.countP_cons, List.countP_cons] at he
    intro x hx hqx
    rcases List.mem_cons.mp hx with rfl | hxt
    · by_contra hpx
      rw [hqx] at he
      simp only [Bool.not_eq_true] at hpx
      rw [hpx] at he
      simp at he
      omega
    · have het : t.countP p = t.countP q := by
        cases hpa : p a
        · have hq2 := himp a (List.mem_cons_self a t)
          cases hqa : q a
          · rw [hpa, hqa] at he
            simpa using he
          · rw [hpa, hqa] at he
            simp at he
            omega
        · have hqa := himp a (List.mem_cons_self a t) hpa
          rw [hpa, hqa] at he
          simpa using he
      exact ih (fun y hy => himp y (List.mem_cons_of_mem a hy)) het x hxt hqx

/-! ## Grid coherence and adjacency correctness -/

/-- Coordinate-level adjacency correctness: every in-bounds non-mine cell's
`adjacent` field equals its mine-neighbor count. -/
def adjacentCorrectAt (b : Board) : Prop :=
  ∀ p ∈ allPositions b.cols b.rows,
    (b.cellAt p.1 p.2).state.is_mine = false →
    (b.cellAt p.1 p.2).state.adjacent = (b.countMineNbrs p.1 p.2 : Int)

instance (b : Board) : Decidable (adjacentCorrectAt b) := by
  unfold adjacentCorrectAt
  infer_instance

theorem length_of_gridOf {b : Board} (hg : gridOf b = allPositions b.cols b.rows) :
    b.cells.length = b.rows.toNat * b.cols.toNat := by
  have h1 := congrArg List.length hg
  unfold gridOf at h1
  rw [List.length_map, length_allPositions] at h1
  exact h1

theorem cellAt_coords {b : Board} (hg : gridOf b = allPositions b.cols b.rows)
    {c r : Int} (hin : b.is_inbounds c r = true) :
    (b.cellAt c r).col = c ∧ (b.cellAt c r).row = r := by
  have hlen := length_of_gridOf hg
  have hlt : (b.index c r).toNat < b.cells.length := index_toNat_lt_length hin hlen
  rw [is_inbounds_iff] at hin
  have h2 := congrArg (fun t => t[(b.index c r).toNat]?) hg
  simp only [gridOf, List.getElem?_map] at h2
  have hidx : b.index c r = r * b.cols + c := rfl
  rw [hidx, getElem?_allPositions hin.1 hin.2.1 hin.2.2.1 hin.2.2.2] at h2
  rw [← hidx] at h2
  rw [List.getElem?_eq_getElem hlt] at h2
  simp only [Option.map_some'] at h2
  have h3 : ((b.cells[(b.index c r).toNat]).col, (b.cells[(b.index c r).toNat]).row)
      = (c, r) := Option.some.inj h2
  rw [cellAt_eq_getElem hlt]
  exact ⟨congrArg Prod.fst h3, congrArg Prod.snd h3⟩

theorem adjacentCorrectAt_congr {b b' : Board} (hc : b'.cols = b.cols)
    (hr : b'.rows = b.rows)
    (hm : ∀ c r, (b'.cellAt c r).state.is_mine = (b.cellAt c r).state.is_mine)
    (ha : ∀ c r, (b'.cellAt c r).state.adjacent = (b.cellAt c r).state.adjacent)
    (h : adjacentCorrectAt b) : adjacentCorrectAt b' := by
  intro p hp hnm
  rw [hc, hr] at hp
  rw [hm] at hnm
  rw [ha, countMineNbrs_congr hc hr hm]
  exact h p hp hnm

theorem SameSkeleton.adjacentCorrectAt_eq {b b' : Board} (hs : SameSkeleton b b')
    (h : adjacentCorrectAt b) : adjacentCorrectAt b' :=
  adjacentCorrectAt_congr hs.1 hs.2.1 hs.cellAt_mine hs.cellAt_adjacent h

theorem gridOf_foldl_set_mine (coords : List (Int × Int)) (b : Board) :
    gridOf (coords.foldl Board.set_mine_at b) = gridOf b := by
  induction coords generalizing b with
  | nil => rfl
  | cons p rest ih =>
    rw [List.foldl_cons, ih]
    exact gridOf_modifyCell b p.1 p.2 _

theorem gridOf_map_state (b : Board) (f : Cell → Cell)
    (hf : ∀ cell, (f cell).col = cell.col ∧ (f cell).row = cell.row) :
    gridOf ({ b with cells := b.cells.map f } : Board) = gridOf b := by
  unfold gridOf
  show (b.cells.map f).map _ = _
  rw [List.map_map]
  apply List.map_congr_left
  intro cell _
  show ((f cell).col, (f cell).row) = (cell.col, cell.row)
  rw [(hf cell).1, (hf cell).2]

theorem gridOf_place_mines (b : Board) (sigma : List (Int × Int) → List (Int × Int))
    (sc sr : Int) : gridOf (b.place_mines sigma sc sr) = gridOf b := by
  rw [place_mines_eq]
  have h1 : gridOf ({ ((pySlice (sigma (b.minePool sc sr)) b.num_mines).foldl
      Board.set_mine_at b).compute_adjacents with mines_placed := true } : Board) =
      gridOf (((pySlice (sigma (b.minePool sc sr)) b.num_mines).foldl
        Board.set_mine_at b).compute_adjacents) := rfl
  rw [h1]
  unfold Board.compute_adjacents
  rw [gridOf_map_state _ _ (by intro cell; split <;> exact ⟨rfl, rfl⟩)]
  exact gridOf_foldl_set_mine _ _

theorem place_mines_fields (b : Board) (sigma : List (Int × Int) → List (Int × Int))
    (sc sr : Int) :
    (b.place_mines sigma sc sr).cols = b.cols ∧
    (b.place_mines sigma sc sr).rows = b.rows ∧
    (b.place_mines sigma sc sr).num_mines = b.num_mines ∧
    (b.place_mines sigma sc sr).mines_placed = true ∧
    (b.place_mines sigma sc sr).revealed_count = b.revealed_count ∧
    (b.place_mines sigma sc sr).game_over = b.game_over ∧
    (b.place_mines sigma sc sr).win = b.win := by
  have hfold : ∀ (coords : List (Int × Int)) (bb : Board),
      ∃ cl, coords.foldl Board.set_mine_at bb = { bb with cells := cl } := by
    intro coords
    induction coords with
    | nil => exact fun bb => ⟨bb.cells, rfl⟩
    | cons p rest ih =>
      intro bb
      obtain ⟨cl1, h1⟩ := set_mine_at_fields bb p
      obtain ⟨cl2, h2⟩ := ih (bb.set_mine_at p)
      refine ⟨cl2, ?_⟩
      rw [List.foldl_cons, h2, h1.1]
  obtain ⟨cl, hcl⟩ := hfold (pySlice (sigma (b.minePool sc sr)) b.num_mines) b
  rw [place_mines_eq]
  unfold Board.compute_adjacents
  rw [hcl]
  exact ⟨rfl, rfl, rfl, rfl, rfl, rfl, rfl⟩

theorem adjacentCorrectAt_place (b : Board)
    (sigma : List (Int × Int) → List (Int × Int)) (sc sr : Int)
    (hg : gridOf b = allPositions b.cols b.rows) :
    adjacentCorrectAt (b.place_mines sigma sc sr) := by
  intro p hp hnm
  have hfields := place_mines_fields b sigma sc sr
  have hg' : gridOf (b.place_mines sigma sc sr) =
      allPositions (b.place_mines sigma sc sr).cols (b.place_mines sigma sc sr).rows := by
    rw [gridOf_place_mines, hfields.1, hfields.2.1, hg]
  have hin : (b.place_mines sigma sc sr).is_inbounds p.1 p.2 = true := by
    rw [is_inbounds_iff]
    exact mem_allPositions.mp hp
  have hlen' := length_of_gridOf hg'
  have hlt := index_toNat_lt_length hin hlen'
  have hco := cellAt_coords hg' hin
  have hmain := place_adjacent_index b sigma sc sr
    ((b.place_mines sigma sc sr).index p.1 p.2).toNat hlt
  rw [cellAt_eq_getElem hlt] at hnm ⊢
  have hres := hmain hnm
  rw [cellAt_eq_getElem hlt] at hco
  rw [hres, hco.1, hco.2]

/-! ## Flood loop: step normal form and skeleton preservation -/

/-- The board after the flood loop reveals the cell at `(c, r)`:
`cur.state.is_revealed = True; self.revealed_count += 1`. -/
def revealStep (b : Board) (c r : Int) : Board :=
  { b with
    cells := b.cells.set (b.index c r).toNat
      ({ b.cellAt c r with state := { (b.cellAt c r).state with is_revealed := true } }),
    revealed_count := b.revealed_count + 1 }

theorem get_eq_cellAt {b : Board} {c r : Int}
    (hlt : (b.index c r).toNat < b.cells.length) :
    b.cells.get ⟨(b.index c r).toNat, hlt⟩ = b.cellAt c r := by
  rw [cellAt_eq_getElem hlt, List.get_eq_getElem]

theorem floodLoop_cons_skip (fuel : Nat) (b : Board) (c r : Int)
    (rest : List (Int × Int)) (hlt : (b.index c r).toNat < b.cells.length)
    (hrev : (b.cellAt c r).state.is_revealed = true) :
    floodLoop (fuel + 1) b ((c, r) :: rest) = floodLoop fuel b rest := by
  rw [floodLoop, dif_pos hlt, if_pos (by rw [get_eq_cellAt hlt]; exact hrev)]

theorem floodLoop_cons_oob (fuel : Nat) (b : Board) (c r : Int)
    (rest : List (Int × Int)) (hlt : ¬ (b.index c r).toNat < b.cells.length) :
    floodLoop (fuel + 1) b ((c, r) :: rest) = floodLoop fuel b rest := by
  rw [floodLoop, dif_neg hlt]

theorem floodLoop_cons_unrev (fuel : Nat) (b : Board) (c r : Int)
    (rest : List (Int × Int)) (hlt : (b.index c r).toNat < b.cells.length)
    (hrev : (b.cellAt c r).state.is_revealed = false) :
    floodLoop (fuel + 1) b ((c, r) :: rest) =
      if (b.cellAt c r).state.adjacent = 0 then
        floodLoop fuel (revealStep b c r)
          (((b.neighbors c r).filter (fun q =>
            !((revealStep b c r).cellAt q.1 q.2).state.is_revealed &&
            !((revealStep b c r).cellAt q.1 q.2).state.is_flagged)).reverse ++ rest)
      else floodLoop fuel (revealStep b c r) rest := by
  rw [floodLoop, dif_pos hlt,
    if_neg (by rw [get_eq_cellAt hlt, hrev]; exact Bool.false_ne_true)]
  rw [get_eq_cellAt hlt]
  rfl

theorem revealStep_eq_modify {b : Board} {c r : Int}
    (hlt : (b.index c r).toNat < b.cells.length) :
    revealStep b c r =
      { b.modifyCell c r (fun s => { s with is_revealed := true }) with
        revealed_count := b.revealed_count + 1 } := by
  unfold revealStep Board.modifyCell
  rw [dif_pos hlt, get_eq_cellAt hlt]

theorem revealStep_skel {b : Board} {c r : Int}
    (hlt : (b.index c r).toNat < b.cells.length) :
    SameSkeleton b (revealStep b c r) := by
  refine ⟨rfl, rfl, rfl, rfl, rfl, rfl, ?_⟩
  show (b.cells.set _ _).map cellSkel = b.cells.map cellSkel
  apply map_set_self
  intro h
  rw [← cellAt_eq_getElem hlt]
  rfl

theorem cellAt_revealStep_self {b : Board} {c r : Int}
    (hlt : (b.index c r).toNat < b.cells.length) :
    (revealStep b c r).cellAt c r =
      { b.cellAt c r with state := { (b.cellAt c r).state with is_revealed := true } } := by
  rw [revealStep_eq_modify hlt]
  show (b.modifyCell c r _).cellAt c r = _
  rw [cellAt_modifyCell_self hlt]

theorem cellAt_revealStep_ne {b : Board} {c r c' r' : Int}
    (hlt : (b.index c r).toNat < b.cells.length)
    (hne : (b.index c' r').toNat ≠ (b.index c r).toNat) :
    (revealStep b c r).cellAt c' r' = b.cellAt c' r' := by
  rw [revealStep_eq_modify hlt]
  show (b.modifyCell c r _).cellAt c' r' = _
  exact cellAt_modifyCell_ne hne

theorem unrevealedCount_revealStep {b : Board} {c r : Int}
    (hlt : (b.index c r).toNat < b.cells.length)
    (hrev : (b.cellAt c r).state.is_revealed = false) :
    unrevealedCount b = unrevealedCount (revealStep b c r) + 1 := by
  have h1 : (!(b.cellAt c r).state.is_revealed) = true := by rw [hrev]; rfl
  have hpos : 0 < b.cells.countP (fun cell => !cell.state.is_revealed) :=
    List.countP_pos_iff.mpr ⟨b.cellAt c r, cellAt_mem hlt, h1⟩
  rw [revealStep_eq_modify hlt]
  show unrevealedCount b = (b.modifyCell c r _).cells.countP _ + 1
  rw [countP_modifyCell _ _ _ _ _ hlt]
  unfold unrevealedCount
  simp only [hrev]
  simp
  omega

theorem revealStep_count {b : Board} {c r : Int}
    (hlt : (b.index c r).toNat < b.cells.length)
    (hrev : (b.cellAt c r).state.is_revealed = false)
    (hnm : (b.cellAt c r).state.is_mine = false) :
    (revealStep b c r).cells.countP
        (fun cell => cell.state.is_revealed && !cell.state.is_mine) =
      b.cells.countP (fun cell => cell.state.is_revealed && !cell.state.is_mine) + 1 := by
  rw [revealStep_eq_modify hlt]
  show (b.modifyCell c r _).cells.countP _ = _
  rw [countP_modifyCell _ _ _ _ _ hlt]
  simp only [hrev, hnm]
  simp

theorem floodLoop_skeleton : ∀ (fuel : Nat) (b : Board) (stack : List (Int × Int)),
    SameSkeleton b (floodLoop fuel b stack) := by
  intro fuel
  induction fuel with
  | zero =>
    intro b stack
    rw [floodLoop]
    exact SameSkeleton.refl b
  | succ n ih =>
    intro b stack
    cases stack with
    | nil =>
      rw [floodLoop]
      exact SameSkeleton.refl b
    | cons head rest =>
      obtain ⟨c, r⟩ := head
      by_cases hlt : (b.index c r).toNat < b.cells.length
      · cases hrev : (b.cellAt c r).state.is_revealed with
        | true =>
          rw [floodLoop_cons_skip n b c r rest hlt hrev]
          exact ih b rest
        | false =>
          rw [floodLoop_cons_unrev n b c r rest hlt hrev]
          have hskel : SameSkeleton b (revealStep b c r) := revealStep_skel hlt
          split
          · exact hskel.trans (ih _ _)
          · exact hskel.trans (ih _ _)
      · rw [floodLoop_cons_oob n b c r rest hlt]
        exact ih b rest

/-! ## Flood loop: revealed-count bookkeeping -/

theorem countMineNbrs_zero_nbr {b : Board} {c r : Int}
    (h : b.countMineNbrs c r = 0) {q : Int × Int} (hq : q ∈ b.neighbors c r) :
    (b.cellAt q.1 q.2).state.is_mine = false := by
  unfold Board.countMineNbrs at h
  rw [List.length_eq_zero] at h
  cases hm : (b.cellAt q.1 q.2).state.is_mine
  · rfl
  · exfalso
    have hmem : q ∈ (b.neighbors c r).filter (fun p => (b.cellAt p.1 p.2).state.is_mine) :=
      List.mem_filter.mpr ⟨hq, hm⟩
    rw [h] at hmem
    exact absurd hmem (List.not_mem_nil q)

theorem zero_adjacent_nbrs_not_mine {b : Board} {c r : Int}
    (hadj : adjacentCorrectAt b) (hin : b.is_inbounds c r = true)
    (hnm : (b.cellAt c r).state.is_mine = false)
    (hz : (b.cellAt c r).state.adjacent = 0) :
    ∀ q ∈ b.neighbors c r, (b.cellAt q.1 q.2).state.is_mine = false := by
  have hmem : ((c, r) : Int × Int) ∈ allPositions b.cols b.rows := by
    rw [mem_allPositions]
    exact is_inbounds_iff.mp hin
  have h1 := hadj (c, r) hmem hnm
  dsimp only at h1
  rw [hz] at h1
  have h2 : b.countMineNbrs c r = 0 := by omega
  intro q hq
  exact countMineNbrs_zero_nbr h2 hq

theorem floodLoop_count : ∀ (fuel : Nat) (b : Board) (stack : List (Int × Int)),
    adjacentCorrectAt b →
    b.cells.length = b.rows.toNat * b.cols.toNat →
    (∀ q ∈ stack, b.is_inbounds q.1 q.2 = true ∧
      (b.cellAt q.1 q.2).state.is_mine = false) →
    b.revealed_count = (b.cells.countP
      (fun cell => cell.state.is_revealed && !cell.state.is_mine) : Int) →
    (floodLoop fuel b stack).revealed_count =
      ((floodLoop fuel b stack).cells.countP
        (fun cell => cell.state.is_revealed && !cell.state.is_mine) : Int) := by
  intro fuel
  induction fuel with
  | zero =>
    intro b stack hadj hlen hstack hcnt
    rw [floodLoop]
    exact hcnt
  | succ n ih =>
    intro b stack hadj hlen hstack hcnt
    cases stack with
    | nil =>
      rw [floodLoop]
      exact hcnt
    | cons head rest =>
      obtain ⟨c, r⟩ := head
      obtain ⟨hin, hnm⟩ := hstack (c, r) (List.mem_cons_self _ _)
      have hlt : (b.index c r).toNat < b.cells.length := index_toNat_lt_length hin hlen
      have hrest : ∀ q ∈ rest, b.is_inbounds q.1 q.2 = true ∧
          (b.cellAt q.1 q.2).state.is_mine = false :=
        fun q hq => hstack q (List.mem_cons_of_mem _ hq)
      cases hrev : (b.cellAt c r).state.is_revealed with
      | true =>
        rw [floodLoop_cons_skip n b c r rest hlt hrev]
        exact ih b rest hadj hlen hrest hcnt
      | false =>
        rw [floodLoop_cons_unrev n b c r rest hlt hrev]
        have hskel : SameSkeleton b (revealStep b c r) := revealStep_skel hlt
        have hadj2 : adjacentCorrectAt (revealStep b c r) :=
          hskel.adjacentCorrectAt_eq hadj
        have hlen2 : (revealStep b c r).cells.length =
            (revealStep b c r).rows.toNat * (revealStep b c r).cols.toNat := by
          rw [hskel.length]
          exact hlen
        have hcnt2 : (revealStep b c r).revealed_count =
            ((revealStep b c r).cells.countP
              (fun cell => cell.state.is_revealed && !cell.state.is_mine) : Int) := by
          have h1 : (revealStep b c r).revealed_count = b.revealed_count + 1 := rfl
          rw [h1, revealStep_count hlt hrev hnm, hcnt]
          push_cast
          ring
        have hrest2 : ∀ q ∈ rest, (revealStep b c r).is_inbounds q.1 q.2 = true ∧
            ((revealStep b c r).cellAt q.1 q.2).state.is_mine = false := by
          intro q hq
          obtain ⟨h1, h2⟩ := hrest q hq
          rw [hskel.inbounds_eq, hskel.cellAt_mine]
          exact ⟨h1, h2⟩
        split
        · rename_i hz
          apply ih _ _ hadj2 hlen2 _ hcnt2
          intro q hq
          rcases List.mem_append.mp hq with hq1 | hq2
          · rw [List.mem_reverse] at hq1
            have hq3 : q ∈ b.neighbors c r := (List.mem_filter.mp hq1).1
            have hq4 : b.is_inbounds q.1 q.2 = true := neighbors_inbounds hq3
            have hq5 : (b.cellAt q.1 q.2).state.is_mine = false :=
              zero_adjacent_nbrs_not_mine hadj hin hnm hz q hq3
            rw [hskel.inbounds_eq, hskel.cellAt_mine]
            exact ⟨hq4, hq5⟩
          · exact hrest2 q hq2
        · apply ih _ _ hadj2 hlen2 hrest2 hcnt2

/-! ## Flood loop: exact extent characterization -/

/-- The connected region of zero-adjacency cells reachable from `start`
(by neighbor steps through cells whose `adjacent` is 0). -/
inductive InZeroRegion (b : Board) (start : Int × Int) : (Int × Int) → Prop where
  | base : InZeroRegion b start start
  | step {p q : Int × Int} : InZeroRegion b start p →
      (b.cellAt p.1 p.2).state.adjacent = 0 → q ∈ b.neighbors p.1 p.2 →
      (b.cellAt q.1 q.2).state.adjacent = 0 → InZeroRegion b start q

/-- The set of cells the flood fill visits: the zero region plus every
neighbor of a region cell. -/
def Flood (b : Board) (start : Int × Int) (q : Int × Int) : Prop :=
  InZeroRegion b start q ∨
    ∃ p, InZeroRegion b start p ∧ q ∈ b.neighbors p.1 p.2

theorem InZeroRegion.inbounds {b : Board} {s q : Int × Int}
    (hs : b.is_inbounds s.1 s.2 = true) (h : InZeroRegion b s q) :
    b.is_inbounds q.1 q.2 = true := by
  induction h with
  | base => exact hs
  | step hp hz hn hqz ih => exact neighbors_inbounds hn

theorem InZeroRegion.zero {b : Board} {s q : Int × Int}
    (hz0 : (b.cellAt s.1 s.2).state.adjacent = 0) (h : InZeroRegion b s q) :
    (b.cellAt q.1 q.2).state.adjacent = 0 := by
  induction h with
  | base => exact hz0
  | step _ _ _ hqz _ => exact hqz

theorem Flood.flood_inbounds {b : Board} {s q : Int × Int}
    (hs : b.is_inbounds s.1 s.2 = true) (h : Flood b s q) :
    b.is_inbounds q.1 q.2 = true := by
  rcases h with h | ⟨p, hp, hn⟩
  · exact h.inbounds hs
  · exact neighbors_inbounds hn

theorem flood_zero_to_region {b : Board} {s q : Int × Int}
    (hz0 : (b.cellAt s.1 s.2).state.adjacent = 0) (h : Flood b s q)
    (hqz : (b.cellAt q.1 q.2).state.adjacent = 0) : InZeroRegion b s q := by
  rcases h with h | ⟨p, hp, hn⟩
  · exact h
  · exact InZeroRegion.step hp (hp.zero hz0) hn hqz

theorem revealStep_rev_mono {b : Board} {c r : Int}
    (hlt : (b.index c r).toNat < b.cells.length) (c' r' : Int)
    (h : (b.cellAt c' r').state.is_revealed = true) :
    ((revealStep b c r).cellAt c' r').state.is_revealed = true := by
  by_cases he : (b.index c' r').toNat = (b.index c r).toNat
  · have hidx : ∀ a e : Int, (revealStep b c r).index a e = b.index a e := fun a e => rfl
    have h1 : (revealStep b c r).cellAt c' r' = (revealStep b c r).cellAt c r := by
      unfold Board.cellAt
      rw [hidx, hidx, he]
    rw [h1, cellAt_revealStep_self hlt]
  · rw [cellAt_revealStep_ne hlt he]
    exact h

/-- Loop invariant of the flood fill relative to the pre-loop board `b0` and
the clicked cell `start`. -/
structure FloodInv (b0 : Board) (start : Int × Int)
    (b : Board) (stack : List (Int × Int)) : Prop where
  skel : SameSkeleton b0 b
  rev_sub : ∀ q : Int × Int, b0.is_inbounds q.1 q.2 = true →
    (b.cellAt q.1 q.2).state.is_revealed = true → Flood b0 start q
  stack_sub : ∀ q ∈ stack, Flood b0 start q
  closure : ∀ p : Int × Int, b0.is_inbounds p.1 p.2 = true →
    (b.cellAt p.1 p.2).state.is_revealed = true →
    (b0.cellAt p.1 p.2).state.adjacent = 0 →
    ∀ q ∈ b0.neighbors p.1 p.2,
      (b.cellAt q.1 q.2).state.is_revealed = true ∨ q ∈ stack
  start_cov : (b.cellAt start.1 start.2).state.is_revealed = true ∨ start ∈ stack

theorem FloodInv.complete {b0 : Board} {start : Int × Int} {b : Board}
    (inv : FloodInv b0 start b [])
    (hs_in : b0.is_inbounds start.1 start.2 = true)
    (hs_z : (b0.cellAt start.1 start.2).state.adjacent = 0) :
    ∀ q : Int × Int, b0.is_inbounds q.1 q.2 = true →
      ((b.cellAt q.1 q.2).state.is_revealed = true ↔ Flood b0 start q) := by
  have hregion_rev : ∀ w, InZeroRegion b0 start w →
      (b.cellAt w.1 w.2).state.is_revealed = true := by
    intro w hw
    induction hw with
    | base =>
      rcases inv.start_cov with h | h
      · exact h
      · exact absurd h (List.not_mem_nil _)
    | @step p' q' hp hpz hn hqz ih =>
      have hp_in : b0.is_inbounds p'.1 p'.2 = true := hp.inbounds hs_in
      rcases inv.closure p' hp_in ih hpz q' hn with h | h
      · exact h
      · exact absurd h (List.not_mem_nil _)
  intro q hq
  constructor
  · exact inv.rev_sub q hq
  · intro hf
    rcases hf with hreg | ⟨p, hp, hn⟩
    · exact hregion_rev q hreg
    · have hp_in := hp.inbounds hs_in
      have hp_rev := hregion_rev p hp
      have hp_z := hp.zero hs_z
      rcases inv.closure p hp_in hp_rev hp_z q hn with h | h
      · exact h
      · exact absurd h (List.not_mem_nil _)

theorem floodLoop_char (b0 : Board) (start : Int × Int)
    (hg_len : b0.cells.length = b0.rows.toNat * b0.cols.toNat)
    (hflag0 : ∀ qc qr : Int, b0.is_inbounds qc qr = true →
      (b0.cellAt qc qr).state.is_flagged = false)
    (hs_in : b0.is_inbounds start.1 start.2 = true)
    (hs_z : (b0.cellAt start.1 start.2).state.adjacent = 0) :
    ∀ (fuel : Nat) (b : Board) (stack : List (Int × Int)),
      floodMeasure b stack ≤ fuel →
      FloodInv b0 start b stack →
      ∀ q : Int × Int, b0.is_inbounds q.1 q.2 = true →
        (((floodLoop fuel b stack).cellAt q.1 q.2).state.is_revealed = true ↔
          Flood b0 start q) := by
  intro fuel
  induction fuel with
  | zero =>
    intro b stack hmeas inv
    have hnil : stack = [] := by
      unfold floodMeasure at hmeas
      have h0 : stack.length = 0 := by omega
      exact List.length_eq_zero.mp h0
    subst hnil
    rw [floodLoop]
    exact inv.complete hs_in hs_z
  | succ n ih =>
    intro b stack hmeas inv
    cases stack with
    | nil =>
      rw [floodLoop]
      exact inv.complete hs_in hs_z
    | cons head rest =>
      obtain ⟨c, r⟩ := head
      have hFcr : Flood b0 start (c, r) := inv.stack_sub _ (List.mem_cons_self _ _)
      have hin0 : b0.is_inbounds c r = true := hFcr.flood_inbounds hs_in
      have hinb : b.is_inbounds c r = true := by
        rw [inv.skel.inbounds_eq]
        exact hin0
      have hlenb : b.cells.length = b.rows.toNat * b.cols.toNat := by
        rw [inv.skel.length, inv.skel.1, inv.skel.2.1]
        exact hg_len
      have hlt : (b.index c r).toNat < b.cells.length := index_toNat_lt_length hinb hlenb
      -- coordinate/index disambiguation on b
      have hidx_ne : ∀ w : Int × Int, b0.is_inbounds w.1 w.2 = true → w ≠ (c, r) →
          (b.index w.1 w.2).toNat ≠ (b.index c r).toNat := by
        intro w hw hne heq
        have hwb : b.is_inbounds w.1 w.2 = true := by
          rw [inv.skel.inbounds_eq]
          exact hw
        obtain ⟨e1, e2⟩ := index_toNat_inj hwb hinb heq
        apply hne
        rw [Prod.ext_iff]
        exact ⟨e1, e2⟩
      cases hrev : (b.cellAt c r).state.is_revealed with
      | true =>
        rw [floodLoop_cons_skip n b c r rest hlt hrev]
        have hmeas2 : floodMeasure b rest ≤ n := by
          unfold floodMeasure at hmeas ⊢
          rw [List.length_cons] at hmeas
          omega
        refine ih b rest hmeas2 ⟨inv.skel, inv.rev_sub, ?_, ?_, ?_⟩
        · exact fun q hq => inv.stack_sub q (List.mem_cons_of_mem _ hq)
        · intro p hp hprev hpz q hqn
          rcases inv.closure p hp hprev hpz q hqn with h | h
          · exact Or.inl h
          · rcases List.mem_cons.mp h with rfl | h2
            · exact Or.inl hrev
            · exact Or.inr h2
        · rcases inv.start_cov with h | h
          · exact Or.inl h
          · rcases List.mem_cons.mp h with rfl | h2
            · exact Or.inl hrev
            · exact Or.inr h2
      | false =>
        have hskel2 : SameSkeleton b (revealStep b c r) := revealStep_skel hlt
        have hskelT : SameSkeleton b0 (revealStep b c r) := inv.skel.trans hskel2
        have hself : ((revealStep b c r).cellAt c r).state.is_revealed = true := by
          rw [cellAt_revealStep_self hlt]
        have hothers : ∀ w : Int × Int, b0.is_inbounds w.1 w.2 = true → w ≠ (c, r) →
            (revealStep b c r).cellAt w.1 w.2 = b.cellAt w.1 w.2 := by
          intro w hw hne
          exact cellAt_revealStep_ne hlt (hidx_ne w hw hne)
        have hz0iff : (b0.cellAt c r).state.adjacent = (b.cellAt c r).state.adjacent :=
          (inv.skel.cellAt_adjacent c r).symm
        have hrevmono := revealStep_rev_mono hlt
        have hmeasu := unrevealedCount_revealStep hlt hrev
        by_cases hz : (b.cellAt c r).state.adjacent = 0
        · rw [floodLoop_cons_unrev n b c r rest hlt hrev, if_pos hz]
          have hz0 : (b0.cellAt c r).state.adjacent = 0 := by
            rw [hz0iff]
            exact hz
          have hreg_cr : InZeroRegion b0 start (c, r) :=
            flood_zero_to_region hs_z hFcr hz0
          have hnbr_eq : b.neighbors c r = b0.neighbors c r := inv.skel.neighbors_eq c r
          have hpush_mem : ∀ q ∈ (b.neighbors c r).filter (fun q =>
              !((revealStep b c r).cellAt q.1 q.2).state.is_revealed &&
              !((revealStep b c r).cellAt q.1 q.2).state.is_flagged),
              q ∈ b0.neighbors c r := by
            intro q hq
            rw [← hnbr_eq]
            exact (List.mem_filter.mp hq).1
          have hmeas2 : floodMeasure (revealStep b c r)
              (((b.neighbors c r).filter (fun q =>
                !((revealStep b c r).cellAt q.1 q.2).state.is_revealed &&
                !((revealStep b c r).cellAt q.1 q.2).state.is_flagged)).reverse ++ rest) ≤
                n := by
            unfold floodMeasure at hmeas ⊢
            rw [List.length_cons] at hmeas
            rw [List.length_append, List.length_reverse]
            have hle8 : ((b.neighbors c r).filter (fun q =>
                !((revealStep b c r).cellAt q.1 q.2).state.is_revealed &&
                !((revealStep b c r).cellAt q.1 q.2).state.is_flagged)).length ≤ 8 :=
              le_trans (List.length_filter_le _ _) (neighbors_length_le b c r)
            omega
          refine ih _ _ hmeas2 ⟨hskelT, ?_, ?_, ?_, ?_⟩
          · -- rev_sub
            intro q hq hqrev
            by_cases hqe : q = (c, r)
            · subst hqe
              exact hFcr
            · rw [hothers q hq hqe] at hqrev
              exact inv.rev_sub q hq hqrev
          · -- stack_sub
            intro q hq
            rcases List.mem_append.mp hq with hq1 | hq2
            · rw [List.mem_reverse] at hq1
              exact Or.inr ⟨(c, r), hreg_cr, hpush_mem q hq1⟩
            · exact inv.stack_sub q (List.mem_cons_of_mem _ hq2)
          · -- closure
            intro p hp hprev hpz q hqn
            by_cases hpe : p = (c, r)
            · subst hpe
              cases hqrev : ((revealStep b c r).cellAt q.1 q.2).state.is_revealed with
              | true => exact Or.inl rfl
              | false =>
                refine Or.inr (List.mem_append.mpr (Or.inl ?_))
                rw [List.mem_reverse]
                apply List.mem_filter.mpr
                refine ⟨by rw [hnbr_eq]; exact hqn, ?_⟩
                have hqin0 : b0.is_inbounds q.1 q.2 = true := neighbors_inbounds hqn
                have hqflag : ((revealStep b c r).cellAt q.1 q.2).state.is_flagged = false := by
                  rw [hskelT.cellAt_flag]
                  exact hflag0 q.1 q.2 hqin0
                rw [hqrev, hqflag]
                rfl
            · rw [hothers p hp hpe] at hprev
              rcases inv.closure p hp hprev hpz q hqn with h | h
              · exact Or.inl (hrevmono q.1 q.2 h)
              · rcases List.mem_cons.mp h with rfl | h2
                · exact Or.inl hself
                · exact Or.inr (List.mem_append.mpr (Or.inr h2))
          · -- start_cov
            rcases inv.start_cov with h | h
            · exact Or.inl (hrevmono start.1 start.2 h)
            · rcases List.mem_cons.mp h with hse | h2
              · rw [hse]
                exact Or.inl hself
              · exact Or.inr (List.mem_append.mpr (Or.inr h2))
        · rw [floodLoop_cons_unrev n b c r rest hlt hrev, if_neg hz]
          have hmeas2 : floodMeasure (revealStep b c r) rest ≤ n := by
            unfold floodMeasure at hmeas ⊢
            rw [List.length_cons] at hmeas
            omega
          refine ih _ _ hmeas2 ⟨hskelT, ?_, ?_, ?_, ?_⟩
          · intro q hq hqrev
            by_cases hqe : q = (c, r)
            · subst hqe
              exact hFcr
            · rw [hothers q hq hqe] at hqrev
              exact inv.rev_sub q hq hqrev
          · exact fun q hq => inv.stack_sub q (List.mem_cons_of_mem _ hq)
          · intro p hp hprev hpz q hqn
            by_cases hpe : p = (c, r)
            · subst hpe
              exfalso
              rw [hz0iff] at hpz
              exact hz hpz
            · rw [hothers p hp hpe] at hprev
              rcases inv.closure p hp hprev hpz q hqn with h | h
              · exact Or.inl (hrevmono q.1 q.2 h)
              · rcases List.mem_cons.mp h with rfl | h2
                · exact Or.inl hself
                · exact Or.inr h2
          · rcases inv.start_cov with h | h
            · exact Or.inl (hrevmono start.1 start.2 h)
            · rcases List.mem_cons.mp h with hse | h2
              · rw [hse]
                exact Or.inl hself
              · exact Or.inr h2

/-! ## Reveal unfolding and check_win analysis -/

theorem reveal_unfold (b : Board) (sigma : List (Int × Int) → List (Int × Int))
    (c r : Int) :
    b.reveal sigma c r =
      if b.is_inbounds c r = true then
        if ((b.cellAt c r).state.is_revealed || (b.cellAt c r).state.is_flagged) = true then b
        else
          if ((if b.mines_placed = true then b else b.place_mines sigma c r).cellAt c r).state.is_mine
              = true then
            Board.reveal_all_mines
              { (if b.mines_placed = true then b
                 else b.place_mines sigma c r).modifyCell c r
                  (fun s => { s with is_revealed := true }) with game_over := true }
          else
            Board.check_win (floodLoop
              (9 * (if b.mines_placed = true then b else b.place_mines sigma c r).cells.length + 1)
              (if b.mines_placed = true then b else b.place_mines sigma c r) [(c, r)])
      else b := rfl

theorem check_win_cols (b : Board) : (b.check_win).cols = b.cols := by
  unfold Board.check_win
  split <;> rfl

theorem check_win_cells_eq (b : Board)
    (himp : b.revealed_count = b.cols * b.rows - b.num_mines →
      ∀ cell ∈ b.cells, cell.state.is_mine = false → cell.state.is_revealed = true) :
    (b.check_win).cells = b.cells := by
  unfold Board.check_win
  split
  · rename_i hcond
    show b.cells.map _ = b.cells
    have h2 := himp hcond.1
    have hid : ∀ cell ∈ b.cells,
        (if !cell.state.is_revealed && !cell.state.is_mine then
          { cell with state := { cell.state with is_revealed := true } } else cell) = cell := by
      intro cell hc
      rw [if_neg]
      intro hcontra
      simp only [Bool.and_eq_true, Bool.not_eq_true'] at hcontra
      have hr2 := h2 cell hc hcontra.2
      rw [hr2] at hcontra
      exact absurd hcontra.1 (by simp)
    calc b.cells.map _ = b.cells.map id := List.map_congr_left hid
      _ = b.cells := List.map_id b.cells
  · rfl

theorem cellAt_eq_of_cells_cols {b b' : Board} (hc : b'.cells = b.cells)
    (hcol : b'.cols = b.cols) (c r : Int) : b'.cellAt c r = b.cellAt c r := by
  unfold Board.cellAt Board.index
  rw [hc, hcol]

theorem all_nonmine_revealed_of_counts (b : Board)
    (hcnt : b.revealed_count = (b.cells.countP
      (fun cell => cell.state.is_revealed && !cell.state.is_mine) : Int))
    (hmc : mineCount b = b.num_mines.toNat)
    (hlen : b.cells.length = b.rows.toNat * b.cols.toNat)
    (hwin : b.revealed_count = b.cols * b.rows - b.num_mines) :
    ∀ cell ∈ b.cells, cell.state.is_mine = false → cell.state.is_revealed = true := by
  by_cases hdeg : b.rows.toNat * b.cols.toNat = 0
  · intro cell hc
    rw [hdeg] at hlen
    rw [List.length_eq_zero.mp hlen] at hc
    exact absurd hc (List.not_mem_nil _)
  · have hr0 : 0 < b.rows := by
      rcases Nat.eq_zero_or_pos b.rows.toNat with h | h
      · exact absurd (by rw [h]; ring) hdeg
      · omega
    have hc0 : 0 < b.cols := by
      rcases Nat.eq_zero_or_pos b.cols.toNat with h | h
      · exact absurd (by rw [h]; ring) hdeg
      · omega
    have hcast : ((b.rows.toNat * b.cols.toNat : Nat) : Int) = b.cols * b.rows := by
      push_cast
      rw [Int.toNat_of_nonneg (le_of_lt hr0), Int.toNat_of_nonneg (le_of_lt hc0)]
      ring
    have hsplit := List.length_eq_countP_add_countP
      (fun cell => cell.state.is_mine) b.cells
    have hconv : b.cells.countP (fun a => decide ¬(a.state.is_mine = true)) =
        b.cells.countP (fun cell => !cell.state.is_mine) := by
      apply List.countP_congr
      intro x _
      simp
    rw [hconv] at hsplit
    have hle := List.countP_le_length
      (fun cell => cell.state.is_revealed && !cell.state.is_mine) (l := b.cells)
    have hkey : b.cells.countP (fun cell => cell.state.is_revealed && !cell.state.is_mine) =
        b.cells.countP (fun cell => !cell.state.is_mine) := by
      unfold mineCount at hmc
      have hlen2 : ((b.cells.length : Nat) : Int) = b.cols * b.rows := by
        rw [hlen]
        exact hcast
      generalize hP : b.cols * b.rows = P at hwin hlen2
      omega
    have himp : ∀ x ∈ b.cells, (x.state.is_revealed && !x.state.is_mine) = true →
        (!x.state.is_mine) = true := by
      intro x _ hx
      exact (Bool.and_elim_right hx)
    intro cell hc hm
    have hq : (!cell.state.is_mine) = true := by rw [hm]; rfl
    have := forall_of_countP_eq b.cells himp hkey cell hc hq
    exact Bool.and_elim_left this

theorem InZeroRegion.nonmine {b : Board} {s q : Int × Int}
    (hadj : adjacentCorrectAt b) (hs_in : b.is_inbounds s.1 s.2 = true)
    (hs_nm : (b.cellAt s.1 s.2).state.is_mine = false)
    (hs_z : (b.cellAt s.1 s.2).state.adjacent = 0)
    (h : InZeroRegion b s q) : (b.cellAt q.1 q.2).state.is_mine = false := by
  induction h with
  | base => exact hs_nm
  | @step p' q' hp hpz hn hqz ih =>
    exact zero_adjacent_nbrs_not_mine hadj (hp.inbounds hs_in) ih hpz q' hn

theorem flood_iff_region_or_border {b : Board} {start q : Int × Int}
    (hadj : adjacentCorrectAt b)
    (hs_in : b.is_inbounds start.1 start.2 = true)
    (hs_nm : (b.cellAt start.1 start.2).state.is_mine = false)
    (hs_z : (b.cellAt start.1 start.2).state.adjacent = 0)
    (hq_in : b.is_inbounds q.1 q.2 = true) :
    Flood b start q ↔
      (InZeroRegion b start q ∨
        (0 < (b.cellAt q.1 q.2).state.adjacent ∧
          ∃ p, InZeroRegion b start p ∧ q ∈ b.neighbors p.1 p.2)) := by
  constructor
  · intro hf
    by_cases hqz : (b.cellAt q.1 q.2).state.adjacent = 0
    · exact Or.inl (flood_zero_to_region hs_z hf hqz)
    · rcases hf with hreg | ⟨p, hp, hn⟩
      · exact Or.inl hreg
      · refine Or.inr ⟨?_, p, hp, hn⟩
        have hp_nm := hp.nonmine hadj hs_in hs_nm hs_z
        have hq_nm := zero_adjacent_nbrs_not_mine hadj (hp.inbounds hs_in) hp_nm
          (hp.zero hs_z) q hn
        have hmem : q ∈ allPositions b.cols b.rows := by
          rw [mem_allPositions]
          exact is_inbounds_iff.mp hq_in
        have hval := hadj q hmem hq_nm
        omega
  · intro h
    rcases h with hreg | ⟨_, p, hp, hn⟩
    · exact Or.inl hreg
    · exact Or.inr ⟨p, hp, hn⟩

/-- C3 (amended): flood-fill extent.  On a board with mines placed, correct
adjacency data, exactly `num_mines` mines, no flagged and no revealed cells (and
`revealed_count` 0), revealing an in-bounds non-mine cell with `adjacent = 0`
reveals exactly the cell's maximal connected zero-adjacency region together with
the bordering cells with `adjacent > 0`, and nothing else. -/
theorem flood_fill_extent (b : Board)
    (sigma : List (Int × Int) → List (Int × Int)) (c0 r0 : Int)
    (hlen : b.cells.length = b.rows.toNat * b.cols.toNat)
    (hplaced : b.mines_placed = true)
    (hadj : adjacentCorrectAt b)
    (hmc : mineCount b = b.num_mines.toNat)
    (hnoflag : ∀ cell ∈ b.cells, cell.state.is_flagged = false)
    (hnorev : ∀ cell ∈ b.cells, cell.state.is_revealed = false)
    (hrc : b.revealed_count = 0)
    (hin : b.is_inbounds c0 r0 = true)
    (hnm : (b.cellAt c0 r0).state.is_mine = false)
    (hz : (b.cellAt c0 r0).state.adjacent = 0) :
    ∀ q : Int × Int, b.is_inbounds q.1 q.2 = true →
      (((b.reveal sigma c0 r0).cellAt q.1 q.2).state.is_revealed = true ↔
        (InZeroRegion b (c0, r0) q ∨
          (0 < (b.cellAt q.1 q.2).state.adjacent ∧
            ∃ p, InZeroRegion b (c0, r0) p ∧ q ∈ b.neighbors p.1 p.2))) := by
  have hflag0 : ∀ qc qr : Int, b.is_inbounds qc qr = true →
      (b.cellAt qc qr).state.is_flagged = false := by
    intro qc qr hq
    exact hnoflag _ (cellAt_mem (index_toNat_lt_length hq hlen))
  have hrev0 : ∀ qc qr : Int, b.is_inbounds qc qr = true →
      (b.cellAt qc qr).state.is_revealed = false := by
    intro qc qr hq
    exact hnorev _ (cellAt_mem (index_toNat_lt_length hq hlen))
  have hpath : b.reveal sigma c0 r0 =
      Board.check_win (floodLoop (9 * b.cells.length + 1) b [(c0, r0)]) := by
    rw [reveal_unfold]
    rw [if_pos hin]
    rw [if_neg (by rw [hrev0 c0 r0 hin, hflag0 c0 r0 hin]; simp)]
    rw [if_pos hplaced]
    rw [if_neg (by rw [hnm]; simp)]
  have hmeasure : floodMeasure b [(c0, r0)] ≤ 9 * b.cells.length + 1 := by
    unfold floodMeasure unrevealedCount
    have hu := List.countP_le_length (fun cell => !cell.state.is_revealed) (l := b.cells)
    simp only [List.length_cons, List.length_nil]
    omega
  have hinv0 : FloodInv b (c0, r0) b [(c0, r0)] := by
    refine ⟨SameSkeleton.refl b, ?_, ?_, ?_, ?_⟩
    · intro q hq hqrev
      rw [hrev0 q.1 q.2 hq] at hqrev
      exact absurd hqrev (by simp)
    · intro q hq
      rcases List.mem_cons.mp hq with rfl | h2
      · exact Or.inl InZeroRegion.base
      · exact absurd h2 (List.not_mem_nil _)
    · intro p hp hprev
      rw [hrev0 p.1 p.2 hp] at hprev
      exact fun _ _ _ => absurd hprev (by simp)
    · exact Or.inr (List.mem_cons_self _ _)
  have hchar := floodLoop_char b (c0, r0) hlen hflag0 hin hz
    (9 * b.cells.length + 1) b [(c0, r0)] hmeasure hinv0
  have hcnt0 : b.revealed_count = (b.cells.countP
      (fun cell => cell.state.is_revealed && !cell.state.is_mine) : Int) := by
    have h0 : b.cells.countP
        (fun cell => cell.state.is_revealed && !cell.state.is_mine) = 0 := by
      rw [List.countP_eq_zero]
      intro cell hc
      rw [hnorev cell hc]
      simp
    rw [h0, hrc]
    rfl
  have hstack0 : ∀ q ∈ [((c0 : Int), (r0 : Int))], b.is_inbounds q.1 q.2 = true ∧
      (b.cellAt q.1 q.2).state.is_mine = false := by
    intro q hq
    rcases List.mem_cons.mp hq with rfl | h2
    · exact ⟨hin, hnm⟩
    · exact absurd h2 (List.not_mem_nil _)
  have hcntf := floodLoop_count (9 * b.cells.length + 1) b [(c0, r0)] hadj hlen hstack0 hcnt0
  have hskelf := floodLoop_skeleton (9 * b.cells.length + 1) b [(c0, r0)]
  have hmcf : mineCount (floodLoop (9 * b.cells.length + 1) b [(c0, r0)]) =
      (floodLoop (9 * b.cells.length + 1) b [(c0, r0)]).num_mines.toNat := by
    rw [hskelf.mineCount_eq, hskelf.2.2.1, hmc]
  have hlenf : (floodLoop (9 * b.cells.length + 1) b [(c0, r0)]).cells.length =
      (floodLoop (9 * b.cells.length + 1) b [(c0, r0)]).rows.toNat *
        (floodLoop (9 * b.cells.length + 1) b [(c0, r0)]).cols.toNat := by
    rw [hskelf.length, hskelf.1, hskelf.2.1]
    exact hlen
  have hcellsf := check_win_cells_eq (floodLoop (9 * b.cells.length + 1) b [(c0, r0)])
    (fun hcond => all_nonmine_revealed_of_counts _ hcntf hmcf hlenf hcond)
  intro q hq
  rw [hpath]
  rw [cellAt_eq_of_cells_cols hcellsf (check_win_cols _) q.1 q.2]
  rw [hchar q hq]
  exact flood_iff_region_or_border hadj hin hnm hz hq

/-- C3 counterexample: on a mines-placed 3×3 board with 0 mines and a flag on
(1,0), revealing (0,0) (which satisfies all the claim's conditions on the
clicked cell) leaves (1,0) unrevealed even though (1,0) lies inside the clicked
cell's maximal connected zero-adjacency region, so the claim fails for boards
that carry flags. -/
theorem flagged_cell_blocks_flood :
    (((Board.init 3 3 0).place_mines id 0 0).toggle_flag 1 0).mines_placed = true ∧
    ((((Board.init 3 3 0).place_mines id 0 0).toggle_flag 1 0).cellAt 0 0).state.is_mine
      = false ∧
    ((((Board.init 3 3 0).place_mines id 0 0).toggle_flag 1 0).cellAt 0 0).state.is_revealed
      = false ∧
    ((((Board.init 3 3 0).place_mines id 0 0).toggle_flag 1 0).cellAt 0 0).state.is_flagged
      = false ∧
    ((((Board.init 3 3 0).place_mines id 0 0).toggle_flag 1 0).cellAt 0 0).state.adjacent
      = 0 ∧
    InZeroRegion (((Board.init 3 3 0).place_mines id 0 0).toggle_flag 1 0) (0, 0) (1, 0) ∧
    (((((Board.init 3 3 0).place_mines id 0 0).toggle_flag 1 0).reveal id 0
        0).cellAt 1 0).state.is_revealed = false :=
  ⟨by decide, by decide, by decide, by decide, by decide,
    InZeroRegion.step InZeroRegion.base (by decide) (by decide) (by decide),
    by decide⟩

/-- Witness for the amended C3 claim at the 4×1 board with one mine at (2,0). -/
theorem flood_fill_extent_witness :
    (((Board.init 4 1 1).place_mines id 0 0).cells.length =
      ((Board.init 4 1 1).place_mines id 0 0).rows.toNat *
        ((Board.init 4 1 1).place_mines id 0 0).cols.toNat) ∧
    ((Board.init 4 1 1).place_mines id 0 0).mines_placed = true ∧
    adjacentCorrectAt ((Board.init 4 1 1).place_mines id 0 0) ∧
    mineCount ((Board.init 4 1 1).place_mines id 0 0) =
      ((Board.init 4 1 1).place_mines id 0 0).num_mines.toNat ∧
    (∀ cell ∈ ((Board.init 4 1 1).place_mines id 0 0).cells,
      cell.state.is_flagged = false) ∧
    (∀ cell ∈ ((Board.init 4 1 1).place_mines id 0 0).cells,
      cell.state.is_revealed = false) ∧
    ((Board.init 4 1 1).place_mines id 0 0).revealed_count = 0 ∧
    ((Board.init 4 1 1).place_mines id 0 0).is_inbounds 0 0 = true ∧
    ((((Board.init 4 1 1).place_mines id 0 0)).cellAt 0 0).state.is_mine = false ∧
    ((((Board.init 4 1 1).place_mines id 0 0)).cellAt 0 0).state.adjacent = 0 ∧
    (∀ q : Int × Int, ((Board.init 4 1 1).place_mines id 0 0).is_inbounds q.1 q.2 = true →
      (((((Board.init 4 1 1).place_mines id 0 0).reveal id 0 0).cellAt q.1 q.2).state.is_revealed
          = true ↔
        (InZeroRegion ((Board.init 4 1 1).place_mines id 0 0) (0, 0) q ∨
          (0 < ((((Board.init 4 1 1).place_mines id 0 0)).cellAt q.1 q.2).state.adjacent ∧
            ∃ p, InZeroRegion ((Board.init 4 1 1).place_mines id 0 0) (0, 0) p ∧
              q ∈ ((Board.init 4 1 1).place_mines id 0 0).neighbors p.1 p.2)))) :=
  ⟨by decide, by decide, by decide, by decide, by decide, by decide, by decide, by decide,
    by decide, by decide,
    flood_fill_extent ((Board.init 4 1 1).place_mines id 0 0) id 0 0
      (by decide) (by decide) (by decide) (by decide) (by decide) (by decide)
      (by decide) (by decide) (by decide) (by decide)⟩

/-! ## Global invariant for reachable states -/

/-- Number of cells that are revealed and not mines — the quantity
`revealed_count` actually tracks. -/
def countRevNonMine (b : Board) : Nat :=
  b.cells.countP (fun cell => cell.state.is_revealed && !cell.state.is_mine)

/-- Inductive invariant of all boards reachable from `Board(cols, rows, mines)`. -/
def GInv (cols rows mines : Int) (b : Board) : Prop :=
  b.cols = cols ∧ b.rows = rows ∧ b.num_mines = mines ∧
  gridOf b = allPositions cols rows ∧
  b.revealed_count = (countRevNonMine b : Int) ∧
  (b.mines_placed = true → mineCount b = mines.toNat ∧ adjacentCorrectAt b) ∧
  (b.mines_placed = false →
    ∀ cell ∈ b.cells, cell.state.is_mine = false ∧ cell.state.is_revealed = false)

theorem gridOf_init (cols rows mines : Int) :
    gridOf (Board.init cols rows mines) = allPositions cols rows := by
  unfold gridOf Board.init
  show ((allPositions cols rows).map _).map _ = _
  rw [List.map_map]
  have h : ∀ p ∈ allPositions cols rows,
      ((fun cell => (cell.col, cell.row)) ∘
        (fun p : Int × Int => ({ col := p.1, row := p.2, state := CellState.init } : Cell))) p
        = id p := by
    intro p _
    show (p.1, p.2) = p
    rfl
  rw [List.map_congr_left h, List.map_id]

theorem GInv_init (cols rows mines : Int) : GInv cols rows mines (Board.init cols rows mines) := by
  refine ⟨rfl, rfl, rfl, gridOf_init cols rows mines, ?_, ?_, ?_⟩
  · show (0 : Int) = _
    have h0 : countRevNonMine (Board.init cols rows mines) = 0 := by
      unfold countRevNonMine
      rw [List.countP_eq_zero]
      intro cell hc
      unfold Board.init at hc
      rw [List.mem_map] at hc
      obtain ⟨p, _, rfl⟩ := hc
      simp [CellState.init]
    rw [h0]
    rfl
  · intro h
    exact absurd h (by simp [Board.init])
  · intro _ cell hc
    unfold Board.init at hc
    rw [List.mem_map] at hc
    obtain ⟨p, _, rfl⟩ := hc
    exact ⟨rfl, rfl⟩

theorem GInv_modifyCell {cols rows mines : Int} {b : Board} {c r : Int}
    {f : CellState → CellState}
    (hG : GInv cols rows mines b)
    (hf_m : ∀ s, (f s).is_mine = s.is_mine)
    (hf_r : ∀ s, (f s).is_revealed = s.is_revealed)
    (hf_a : ∀ s, (f s).adjacent = s.adjacent) :
    GInv cols rows mines (b.modifyCell c r f) := by
  obtain ⟨cl, hcl, hlencl⟩ := modifyCell_shape b c r f
  obtain ⟨g1, g2, g3, g4, g5, g6, g7⟩ := hG
  have hcols : (b.modifyCell c r f).cols = b.cols := by rw [hcl]
  have hrows : (b.modifyCell c r f).rows = b.rows := by rw [hcl]
  have hnum : (b.modifyCell c r f).num_mines = b.num_mines := by rw [hcl]
  have hmp : (b.modifyCell c r f).mines_placed = b.mines_placed := by rw [hcl]
  have hrc : (b.modifyCell c r f).revealed_count = b.revealed_count := by rw [hcl]
  have hcount : countRevNonMine (b.modifyCell c r f) = countRevNonMine b := by
    unfold countRevNonMine
    apply countP_modifyCell_of_proj
    intro cell
    show ((f cell.state).is_revealed && !(f cell.state).is_mine) = _
    rw [hf_r, hf_m]
  have hmine : mineCount (b.modifyCell c r f) = mineCount b := by
    unfold mineCount
    apply countP_modifyCell_of_proj
    intro cell
    show (f cell.state).is_mine = _
    rw [hf_m]
  refine ⟨hcols.trans g1, hrows.trans g2, hnum.trans g3, ?_, ?_, ?_, ?_⟩
  · rw [gridOf_modifyCell]
    exact g4
  · rw [hrc, hcount]
    exact g5
  · intro hp
    rw [hmp] at hp
    refine ⟨hmine.trans (g6 hp).1, ?_⟩
    refine adjacentCorrectAt_congr hcols hrows ?_ ?_ (g6 hp).2
    · exact cellAt_modifyCell_state_proj (fun s => s.is_mine) hf_m
    · exact cellAt_modifyCell_state_proj (fun s => s.adjacent) hf_a
  · intro hp cell hc
    rw [hmp] at hp
    rw [hcl] at hc
    show cell.state.is_mine = false ∧ cell.state.is_revealed = false
    unfold Board.modifyCell at hcl
    by_cases hlt : (b.index c r).toNat < b.cells.length
    · rw [dif_pos hlt] at hcl
      have hcl2 : cl = b.cells.set (b.index c r).toNat
          ({ b.cells.get ⟨(b.index c r).toNat, hlt⟩ with
             state := f (b.cells.get ⟨(b.index c r).toNat, hlt⟩).state }) := by
        have := congrArg Board.cells hcl
        exact this.symm
      rw [hcl2] at hc
      rcases List.mem_or_eq_of_mem_set hc with hmem | heq
      · exact g7 hp cell hmem
      · subst heq
        have hold := g7 hp (b.cells.get ⟨(b.index c r).toNat, hlt⟩)
          (by rw [List.get_eq_getElem]; exact List.getElem_mem hlt)
        constructor
        · show (f _).is_mine = false
          rw [hf_m]
          exact hold.1
        · show (f _).is_revealed = false
          rw [hf_r]
          exact hold.2
    · rw [dif_neg hlt] at hcl
      have hcl2 : cl = b.cells := by
        have := congrArg Board.cells hcl
        exact this.symm
      rw [hcl2] at hc
      exact g7 hp cell hc

theorem toggle_unfold (b : Board) (c r : Int) :
    b.toggle_flag c r =
      if b.is_inbounds c r = true then
        if (b.game_over || b.win) = true then b
        else if (b.cellAt c r).state.is_revealed = true then b
        else b.modifyCell c r (fun s => { s with is_flagged := !s.is_flagged })
      else b := rfl

theorem GInv_toggle {cols rows mines : Int} {b : Board} (c r : Int)
    (hG : GInv cols rows mines b) : GInv cols rows mines (b.toggle_flag c r) := by
  rw [toggle_unfold]
  split
  · split
    · exact hG
    · split
      · exact hG
      · exact GInv_modifyCell hG (fun s => rfl) (fun s => rfl) (fun s => rfl)
  · exact hG

theorem rev_false_foldl_set_mine (coords : List (Int × Int)) (b : Board)
    (h : ∀ cell ∈ b.cells, cell.state.is_revealed = false) :
    ∀ cell ∈ (coords.foldl Board.set_mine_at b).cells, cell.state.is_revealed = false := by
  induction coords generalizing b with
  | nil => exact h
  | cons p rest ih =>
    rw [List.foldl_cons]
    apply ih
    intro cell hc
    unfold Board.set_mine_at Board.modifyCell at hc
    by_cases hlt : (b.index p.1 p.2).toNat < b.cells.length
    · rw [dif_pos hlt] at hc
      have hc2 : cell ∈ b.cells.set (b.index p.1 p.2).toNat _ := hc
      rcases List.mem_or_eq_of_mem_set hc2 with hmem | heq
      · exact h cell hmem
      · subst heq
        dsimp only
        exact h _ (by rw [List.get_eq_getElem]; exact List.getElem_mem hlt)
    · rw [dif_neg hlt] at hc
      exact h cell hc

theorem rev_false_place (b : Board) (sigma : List (Int × Int) → List (Int × Int))
    (sc sr : Int) (h : ∀ cell ∈ b.cells, cell.state.is_revealed = false) :
    ∀ cell ∈ (b.place_mines sigma sc sr).cells, cell.state.is_revealed = false := by
  intro cell hc
  rw [place_mines_eq] at hc
  have hc2 : cell ∈ (((pySlice (sigma (b.minePool sc sr)) b.num_mines).foldl
      Board.set_mine_at b).compute_adjacents).cells := hc
  unfold Board.compute_adjacents at hc2
  rw [List.mem_map] at hc2
  obtain ⟨cell0, hc0, rfl⟩ := hc2
  have hr0 := rev_false_foldl_set_mine _ b h cell0 hc0
  split
  · exact hr0
  · exact hr0

theorem GInv_place {cols rows mines : Int} {b : Board}
    {sigma : List (Int × Int) → List (Int × Int)} {sc sr : Int}
    (hG : GInv cols rows mines b)
    (hperm : ∀ l, (sigma l).Perm l)
    (hp0 : b.mines_placed = false)
    (hin : b.is_inbounds sc sr = true)
    (hm0 : 0 ≤ mines) (hmle : mines ≤ cols * rows - 9)
    (hc : 0 < cols) (hr : 0 < rows) :
    GInv cols rows mines (b.place_mines sigma sc sr) := by
  obtain ⟨g1, g2, g3, g4, g5, g6, g7⟩ := hG
  have hfields := place_mines_fields b sigma sc sr
  have hlen : b.cells.length = b.rows.toNat * b.cols.toNat := by
    apply length_of_gridOf
    rw [g1, g2]
    exact g4
  have hfresh : ∀ cell ∈ b.cells, cell.state.is_mine = false :=
    fun cell hc2 => (g7 hp0 cell hc2).1
  have hnorev : ∀ cell ∈ b.cells, cell.state.is_revealed = false :=
    fun cell hc2 => (g7 hp0 cell hc2).2
  have hmle2 : b.num_mines ≤ ((b.minePool sc sr).length : Int) := by
    have hbound := minePool_length_ge b sc sr
    have hlenall : (allPositions b.cols b.rows).length = b.rows.toNat * b.cols.toNat :=
      length_allPositions _ _
    have hcast : ((b.rows.toNat * b.cols.toNat : Nat) : Int) = cols * rows := by
      push_cast
      rw [g1, g2, Int.toNat_of_nonneg (by omega : (0:Int) ≤ rows),
        Int.toNat_of_nonneg (by omega : (0:Int) ≤ cols)]
      ring
    rw [g3]
    generalize hP : cols * rows = P at hmle hcast
    omega
  have hspec := place_mines_spec b sigma sc sr hperm hin hlen hfresh (by omega) hmle2
  have hmc : mineCount (b.place_mines sigma sc sr) = mines.toNat := by
    have h1 := hspec.2.2
    rw [g3] at h1
    omega
  refine ⟨hfields.1.trans g1, hfields.2.1.trans g2, hfields.2.2.1.trans g3, ?_, ?_, ?_, ?_⟩
  · rw [gridOf_place_mines]
    exact g4
  · have hcnt0 : countRevNonMine b = 0 := by
      unfold countRevNonMine
      rw [List.countP_eq_zero]
      intro cell hc2
      rw [hnorev cell hc2]
      simp
    have hcntp : countRevNonMine (b.place_mines sigma sc sr) = 0 := by
      unfold countRevNonMine
      rw [List.countP_eq_zero]
      intro cell hc2
      rw [rev_false_place b sigma sc sr hnorev cell hc2]
      simp
    rw [hfields.2.2.2.2.1, hcntp, g5, hcnt0]
  · intro _
    refine ⟨hmc, ?_⟩
    apply adjacentCorrectAt_place
    rw [g1, g2]
    exact g4
  · intro hcontra
    rw [hfields.2.2.2.1] at hcontra
    exact absurd hcontra (by simp)

theorem check_win_fields (b : Board) :
    (b.check_win).rows = b.rows ∧ (b.check_win).num_mines = b.num_mines ∧
    (b.check_win).mines_placed = b.mines_placed ∧
    (b.check_win).revealed_count = b.revealed_count ∧
    (b.check_win).game_over = b.game_over := by
  unfold Board.check_win
  split
  · exact ⟨rfl, rfl, rfl, rfl, rfl⟩
  · exact ⟨rfl, rfl, rfl, rfl, rfl⟩

theorem gridOf_reveal_all_mines (b : Board) :
    gridOf b.reveal_all_mines = gridOf b := by
  unfold Board.reveal_all_mines
  apply gridOf_map_state
  intro cell
  split
  · exact ⟨rfl, rfl⟩
  · exact ⟨rfl, rfl⟩

theorem countRevNonMine_reveal_all_mines (b : Board) :
    countRevNonMine b.reveal_all_mines = countRevNonMine b := by
  unfold countRevNonMine Board.reveal_all_mines
  show (b.cells.map _).countP _ = _
  rw [List.countP_map]
  apply List.countP_congr
  intro cell _
  simp only [Function.comp]
  cases hm : cell.state.is_mine <;> simp [hm]

theorem mineCount_reveal_all_mines (b : Board) :
    mineCount b.reveal_all_mines = mineCount b := by
  unfold mineCount Board.reveal_all_mines
  show (b.cells.map _).countP _ = _
  rw [List.countP_map]
  apply List.countP_congr
  intro cell _
  simp only [Function.comp]
  cases hm : cell.state.is_mine <;> simp [hm]

theorem adjacentCorrectAt_reveal_all_mines {b : Board} (h : adjacentCorrectAt b) :
    adjacentCorrectAt b.reveal_all_mines := by
  have hm : ∀ c r, (b.reveal_all_mines.cellAt c r).state.is_mine
      = (b.cellAt c r).state.is_mine := by
    intro c r
    exact cellAt_map_proj (fun cell => cell.state.is_mine) b
      (fun cell => if cell.state.is_mine then
        { cell with state := { cell.state with is_revealed := true } } else cell) c r
      (by intro cell; dsimp only; split <;> rfl)
  have ha : ∀ c r, (b.reveal_all_mines.cellAt c r).state.adjacent
      = (b.cellAt c r).state.adjacent := by
    intro c r
    exact cellAt_map_proj (fun cell => cell.state.adjacent) b
      (fun cell => if cell.state.is_mine then
        { cell with state := { cell.state with is_revealed := true } } else cell) c r
      (by intro cell; dsimp only; split <;> rfl)
  refine adjacentCorrectAt_congr ?_ ?_ hm ha h <;> rfl

theorem GInv_reveal_mine {cols rows mines : Int} {b1 : Board} {c r : Int}
    (hG1 : GInv cols rows mines b1) (hp1 : b1.mines_placed = true)
    (hin1 : b1.is_inbounds c r = true)
    (hmine : (b1.cellAt c r).state.is_mine = true) :
    GInv cols rows mines
      (Board.reveal_all_mines
        { b1.modifyCell c r (fun s => { s with is_revealed := true }) with
          game_over := true }) := by
  obtain ⟨g1, g2, g3, g4, g5, g6, g7⟩ := hG1
  have hlen1 : b1.cells.length = b1.rows.toNat * b1.cols.toNat :=
    length_of_gridOf (by rw [g1, g2]; exact g4)
  have hlt : (b1.index c r).toNat < b1.cells.length := index_toNat_lt_length hin1 hlen1
  obtain ⟨cl, hcl, hlencl⟩ :=
    modifyCell_shape b1 c r (fun s => { s with is_revealed := true })
  have hcnt2 : countRevNonMine (b1.modifyCell c r (fun s => { s with is_revealed := true }))
      = countRevNonMine b1 := by
    unfold countRevNonMine
    rw [countP_modifyCell b1 c r _ _ hlt]
    dsimp only
    rw [hmine]
    simp
  have hmine2 : mineCount (b1.modifyCell c r (fun s => { s with is_revealed := true }))
      = mineCount b1 := by
    unfold mineCount
    exact countP_modifyCell_of_proj _ (fun cell => rfl)
  have hgrid2 : gridOf (b1.modifyCell c r (fun s => { s with is_revealed := true }))
      = gridOf b1 := gridOf_modifyCell b1 c r _
  have hadj2 : adjacentCorrectAt b1 →
      adjacentCorrectAt (b1.modifyCell c r (fun s => { s with is_revealed := true })) := by
    intro hadj
    refine adjacentCorrectAt_congr ?_ ?_ ?_ ?_ hadj
    · rw [hcl]
    · rw [hcl]
    · exact cellAt_modifyCell_state_proj (fun s => s.is_mine) (fun s => rfl)
    · exact cellAt_modifyCell_state_proj (fun s => s.adjacent) (fun s => rfl)
  refine ⟨?_, ?_, ?_, ?_, ?_, ?_, ?_⟩
  · rw [hcl]
    exact g1
  · rw [hcl]
    exact g2
  · rw [hcl]
    exact g3
  · rw [gridOf_reveal_all_mines]
    show gridOf (b1.modifyCell c r (fun s => { s with is_revealed := true })) = _
    rw [hgrid2]
    exact g4
  · rw [countRevNonMine_reveal_all_mines]
    show ({ b1.modifyCell c r (fun s => { s with is_revealed := true }) with
      game_over := true } : Board).revealed_count = _
    have e1 : ({ b1.modifyCell c r (fun s => { s with is_revealed := true }) with
        game_over := true } : Board).revealed_count = b1.revealed_count := by
      rw [hcl]
    have e2 : countRevNonMine ({ b1.modifyCell c r
        (fun s => { s with is_revealed := true }) with game_over := true } : Board)
        = countRevNonMine b1 := by
      rw [← hcnt2]
      rfl
    rw [e1, e2]
    exact g5
  · intro _
    constructor
    · rw [mineCount_reveal_all_mines]
      show mineCount ({ b1.modifyCell c r (fun s => { s with is_revealed := true }) with
        game_over := true } : Board) = _
      have e3 : mineCount ({ b1.modifyCell c r
          (fun s => { s with is_revealed := true }) with game_over := true } : Board)
          = mineCount b1 := by
        rw [← hmine2]
        rfl
      rw [e3]
      exact (g6 hp1).1
    · apply adjacentCorrectAt_reveal_all_mines
      exact hadj2 (g6 hp1).2
  · intro hcontra
    have emp : (Board.reveal_all_mines
        { b1.modifyCell c r (fun s => { s with is_revealed := true }) with
          game_over := true }).mines_placed = true := by
      rw [hcl]
      exact hp1
    rw [emp] at hcontra
    exact absurd hcontra (by simp)

theorem GInv_check_win {cols rows mines : Int} {bf : Board}
    (h1 : bf.cols = cols) (h2 : bf.rows = rows) (h3 : bf.num_mines = mines)
    (h4 : gridOf bf = allPositions cols rows)
    (h5 : bf.revealed_count = (countRevNonMine bf : Int))
    (hmc : mineCount bf = mines.toNat) (hadj : adjacentCorrectAt bf)
    (hp : bf.mines_placed = true) :
    GInv cols rows mines bf.check_win := by
  obtain ⟨f1, f2, f3, f4, f5⟩ := check_win_fields bf
  have hlenf : bf.cells.length = bf.rows.toNat * bf.cols.toNat :=
    length_of_gridOf (by rw [h1, h2]; exact h4)
  have hcwc : (bf.check_win).cells = bf.cells := by
    apply check_win_cells_eq
    intro hw
    exact all_nonmine_revealed_of_counts bf h5 (by rw [h3]; exact hmc) hlenf hw
  refine ⟨?_, ?_, ?_, ?_, ?_, ?_, ?_⟩
  · rw [check_win_cols]
    exact h1
  · rw [f1]
    exact h2
  · rw [f2]
    exact h3
  · have : gridOf bf.check_win = gridOf bf := by
      unfold gridOf
      rw [hcwc]
    rw [this]
    exact h4
  · rw [f4]
    have : countRevNonMine bf.check_win = countRevNonMine bf := by
      unfold countRevNonMine
      rw [hcwc]
    rw [this]
    exact h5
  · intro _
    constructor
    · have : mineCount bf.check_win = mineCount bf := by
        unfold mineCount
        rw [hcwc]
      rw [this]
      exact hmc
    · refine adjacentCorrectAt_congr (check_win_cols bf) f1 ?_ ?_ hadj
      · intro c' r'
        rw [cellAt_eq_of_cells_cols hcwc (check_win_cols bf)]
      · intro c' r'
        rw [cellAt_eq_of_cells_cols hcwc (check_win_cols bf)]
  · intro hcontra
    rw [f3, hp] at hcontra
    exact absurd hcontra (by simp)

theorem GInv_reveal_flood {cols rows mines : Int} {b1 : Board} {c r : Int}
    (hG1 : GInv cols rows mines b1) (hp1 : b1.mines_placed = true)
    (hin1 : b1.is_inbounds c r = true)
    (hnm : (b1.cellAt c r).state.is_mine = false) :
    GInv cols rows mines
      (Board.check_win (floodLoop (9 * b1.cells.length + 1) b1 [(c, r)])) := by
  obtain ⟨g1, g2, g3, g4, g5, g6, g7⟩ := hG1
  obtain ⟨hmc1, hadj1⟩ := g6 hp1
  have hlen1 : b1.cells.length = b1.rows.toNat * b1.cols.toNat :=
    length_of_gridOf (by rw [g1, g2]; exact g4)
  have hskel : SameSkeleton b1 (floodLoop (9 * b1.cells.length + 1) b1 [(c, r)]) :=
    floodLoop_skeleton _ _ _
  have hstack : ∀ q ∈ ([(c, r)] : List (Int × Int)), b1.is_inbounds q.1 q.2 = true ∧
      (b1.cellAt q.1 q.2).state.is_mine = false := by
    intro q hq
    rw [List.mem_singleton] at hq
    subst hq
    exact ⟨hin1, hnm⟩
  have hcntf := floodLoop_count (9 * b1.cells.length + 1) b1 [(c, r)]
    hadj1 hlen1 hstack g5
  apply GInv_check_win
  · rw [hskel.1]
    exact g1
  · rw [hskel.2.1]
    exact g2
  · rw [hskel.2.2.1]
    exact g3
  · rw [hskel.gridOf_eq]
    exact g4
  · exact hcntf
  · rw [hskel.mineCount_eq]
    exact hmc1
  · exact hskel.adjacentCorrectAt_eq hadj1
  · rw [hskel.2.2.2.1]
    exact hp1

theorem GInv_reveal {cols rows mines : Int} {b : Board}
    (sigma : List (Int × Int) → List (Int × Int)) (c r : Int)
    (hG : GInv cols rows mines b)
    (hperm : ∀ l, (sigma l).Perm l)
    (hm0 : 0 ≤ mines) (hmle : mines ≤ cols * rows - 9)
    (hc0 : 0 < cols) (hr0 : 0 < rows) :
    GInv cols rows mines (b.reveal sigma c r) := by
  rw [reveal_unfold]
  split
  · rename_i hin
    split
    · exact hG
    · have hG1 : GInv cols rows mines
          (if b.mines_placed = true then b else b.place_mines sigma c r) := by
        split
        · exact hG
        · rename_i hp0
          rw [Bool.not_eq_true] at hp0
          exact GInv_place hG hperm hp0 hin hm0 hmle hc0 hr0
      have hp1 : (if b.mines_placed = true then b
          else b.place_mines sigma c r).mines_placed = true := by
        split
        · assumption
        · exact (place_mines_fields b sigma c r).2.2.2.1
      have hin1 : (if b.mines_placed = true then b
          else b.place_mines sigma c r).is_inbounds c r = true := by
        obtain ⟨g1, g2, _⟩ := hG1
        obtain ⟨h1, h2, _⟩ := hG
        rw [is_inbounds_iff, g1, g2]
        rw [is_inbounds_iff, h1, h2] at hin
        exact hin
      by_cases hmine : ((if b.mines_placed = true then b
          else b.place_mines sigma c r).cellAt c r).state.is_mine = true
      · rw [if_pos hmine]
        exact GInv_reveal_mine hG1 hp1 hin1 hmine
      · rw [if_neg hmine]
        rw [Bool.not_eq_true] at hmine
        exact GInv_reveal_flood hG1 hp1 hin1 hmine
  · exact hG

theorem GInv_reached {cols rows mines : Int} {b : Board}
    (h : Reached cols rows mines b)
    (hm0 : 0 ≤ mines) (hmle : mines ≤ cols * rows - 9)
    (hc0 : 0 < cols) (hr0 : 0 < rows) :
    GInv cols rows mines b := by
  induction h with
  | init => exact GInv_init cols rows mines
  | reveal sigma col row hb hperm ih =>
    exact GInv_reveal sigma col row ih hperm hm0 hmle hc0 hr0
  | flag col row hb ih => exact GInv_toggle col row ih

theorem mine_path_win (X : Board) (c r : Int) :
    (Board.reveal_all_mines
      { X.modifyCell c r (fun s => { s with is_revealed := true }) with
        game_over := true }).win = X.win := by
  obtain ⟨cl, hcl, _⟩ := modifyCell_shape X c r (fun s => { s with is_revealed := true })
  rw [hcl]
  rfl

theorem flood_path_game_over (X : Board) (c r : Int) :
    (Board.check_win (floodLoop (9 * X.cells.length + 1) X [(c, r)])).game_over
      = X.game_over := by
  rw [(check_win_fields _).2.2.2.2]
  exact (floodLoop_skeleton _ _ _).2.2.2.2.1

theorem reveal_go_win {b : Board} (sigma : List (Int × Int) → List (Int × Int))
    (c r : Int) (hgo : b.game_over = false) (hwin : b.win = false) :
    ¬((b.reveal sigma c r).game_over = true ∧ (b.reveal sigma c r).win = true) := by
  have hb1go : (if b.mines_placed = true then b
      else b.place_mines sigma c r).game_over = false := by
    split
    · exact hgo
    · rw [(place_mines_fields b sigma c r).2.2.2.2.2.1]
      exact hgo
  have hb1win : (if b.mines_placed = true then b
      else b.place_mines sigma c r).win = false := by
    split
    · exact hwin
    · rw [(place_mines_fields b sigma c r).2.2.2.2.2.2]
      exact hwin
  rw [reveal_unfold]
  split
  · split
    · rintro ⟨hg, _⟩
      rw [hgo] at hg
      exact absurd hg (by simp)
    · by_cases hmine : ((if b.mines_placed = true then b
          else b.place_mines sigma c r).cellAt c r).state.is_mine = true
      · rw [if_pos hmine]
        rintro ⟨_, hw⟩
        rw [mine_path_win, hb1win] at hw
        exact absurd hw (by simp)
      · rw [if_neg hmine]
        rintro ⟨hg, _⟩
        rw [flood_path_game_over, hb1go] at hg
        exact absurd hg (by simp)
  · rintro ⟨hg, _⟩
    rw [hgo] at hg
    exact absurd hg (by simp)

theorem toggle_go_win (b : Board) (c r : Int) :
    (b.toggle_flag c r).game_over = b.game_over ∧ (b.toggle_flag c r).win = b.win := by
  rw [toggle_unfold]
  split
  · split
    · exact ⟨rfl, rfl⟩
    · split
      · exact ⟨rfl, rfl⟩
      · obtain ⟨cl, hcl, _⟩ :=
          modifyCell_shape b c r (fun s => { s with is_flagged := !s.is_flagged })
        rw [hcl]
        exact ⟨rfl, rfl⟩
  · exact ⟨rfl, rfl⟩

/-- C4 (amended): on a validly configured board (positive dimensions,
`0 ≤ mines ≤ cols*rows - 9`), after every sequence of public `reveal` and
`toggle_flag` calls, `revealed_count` equals the number of cells that are
revealed and are **not** mines.  (The unamended claim — that it equals the
number of all revealed cells — is refuted by `revealed_count_mismatch_after_loss`:
the losing reveal of a mine and the forced end-of-game mine reveals set
`is_revealed` without touching `revealed_count`.) -/
theorem revealed_count_invariant (cols rows mines : Int) (b : Board)
    (h : Reached cols rows mines b)
    (hc0 : 0 < cols) (hr0 : 0 < rows)
    (hm0 : 0 ≤ mines) (hmle : mines ≤ cols * rows - 9) :
    b.revealed_count = (countRevNonMine b : Int) :=
  (GInv_reached h hm0 hmle hc0 hr0).2.2.2.2.1

theorem revealed_count_invariant_witness :
    ((Board.init 4 3 0).reveal id 0 0).revealed_count
      = (countRevNonMine ((Board.init 4 3 0).reveal id 0 0) : Int) :=
  revealed_count_invariant 4 3 0 _
    (Reached.reveal id 0 0 Reached.init (fun l => List.Perm.refl l))
    (by decide) (by decide) (by decide) (by decide)

/-- C6 (amended): `game_over` and `win` are never both true in any state reached
from a fresh board by call sequences that issue no further `reveal` once
`game_over` or `win` is set — the discipline the presentation layer in
`run.py` follows.  (For unrestricted call sequences the unamended claim is
refuted by `win_and_game_over_both_true`: an unguarded reveal of a mine after a
win sets `game_over` while `win` is already true.) -/
theorem outcomes_mutually_exclusive (cols rows mines : Int) (b : Board)
    (h : ReachedGuarded cols rows mines b) :
    ¬(b.game_over = true ∧ b.win = true) := by
  induction h with
  | init =>
    rintro ⟨hg, _⟩
    exact absurd hg (by simp [Board.init])
  | reveal sigma col row hb hperm hgo hwin ih => exact reveal_go_win sigma col row hgo hwin
  | flag col row hb ih =>
    rintro ⟨hg, hw⟩
    obtain ⟨e1, e2⟩ := toggle_go_win _ col row
    rw [e1] at hg
    rw [e2] at hw
    exact ih ⟨hg, hw⟩

theorem outcomes_mutually_exclusive_witness :
    ¬(((Board.init 3 3 0).reveal id 0 0).game_over = true ∧
      ((Board.init 3 3 0).reveal id 0 0).win = true) :=
  outcomes_mutually_exclusive 3 3 0 _
    (ReachedGuarded.reveal id 0 0 ReachedGuarded.init
      (fun l => List.Perm.refl l) rfl rfl)
